import Mathlib

/-!
# Verification of the MetaRec DebugPage OpenAPI tooling

This file gives a shallow embedding, in Lean, of the JSON-manipulating
functions of the MetaRec front end (`DebugPage` component, `debugApi.ts`
HTTP wrapper, and the `Chat` component's recommendation-result saving),
and proves properties of the specification against that embedding.

JavaScript values handled by this code are JSON data (the OpenAPI
document is `JSON.parse` output, request/response bodies likewise), so
they are modelled by the inductive type `Json` below.  JavaScript `Set`
objects (the `seen` set of `resolveSchema`) are modelled by lists of
strings threaded through the computation in state-passing style, since
the source mutates the set in place and selectively copies it.

Modelling notes, applying throughout:
* JavaScript property access `v?.[k]` is modelled by `jsGet`; prototype
  chain properties (e.g. `toString` on any object) and function-valued
  properties of arrays/strings are not modelled, only own enumerable
  data (object fields, array/string indices, and `length`).
* JavaScript's enumeration-order rule that integer-like keys come first
  in ascending order is not modelled; fields keep insertion order.  No
  claim below involves integer-like object keys.
* `String.prototype.localeCompare` is modelled as code-unit
  (lexicographic) comparison, with which it agrees on the
  case-uniform ASCII path and method strings the claims are about.
* Numbers are modelled as integers; no claim involves fractional
  numbers or NaN.
-/

set_option linter.unusedVariables false

namespace MetaRec

/-- A JSON value (the result of `JSON.parse`, which is what the OpenAPI
document and all schema fragments are). -/
inductive Json where
  | null : Json
  | bool : Bool → Json
  | num : Int → Json
  | str : String → Json
  | arr : List Json → Json
  | obj : List (String × Json) → Json

abbrev Fields := List (String × Json)

/-- JavaScript truthiness of a JSON value. -/
def truthy : Json → Bool
  | .null => false
  | .bool b => b
  | .num n => n != 0
  | .str s => s != ""
  | .arr _ => true
  | .obj _ => true

/-- `typeof v === 'object' && v !== null` for a JSON value: arrays and
objects (JavaScript arrays have `typeof` `'object'`). -/
def isObjLike : Json → Bool
  | .arr _ => true
  | .obj _ => true
  | _ => false

def isObj : Json → Bool
  | .obj _ => true
  | _ => false

def isNull : Json → Bool
  | .null => true
  | _ => false

/-- First-match association lookup: JavaScript object property read. -/
def lookupField : Fields → String → Option Json
  | [], _ => none
  | (k, v) :: fs, key => if k = key then some v else lookupField fs key

/- Size measure on JSON values (used for termination bounds). -/
mutual
def jsize : Json → Nat
  | .null => 1
  | .bool _ => 1
  | .num _ => 1
  | .str _ => 1
  | .arr xs => 1 + jsizeL xs
  | .obj fs => 1 + jsizeF fs
def jsizeL : List Json → Nat
  | [] => 0
  | x :: xs => 1 + jsize x + jsizeL xs
def jsizeF : Fields → Nat
  | [] => 0
  | (_, v) :: fs => 1 + jsize v + jsizeF fs
end

/- All strings occurring as the value of a `"$ref"` key anywhere inside
a JSON value (used for the cycle-guard termination bound). -/
mutual
def refsIn : Json → List String
  | .arr xs => refsInL xs
  | .obj fs => refsInF fs
  | _ => []
def refsInL : List Json → List String
  | [] => []
  | x :: xs => refsIn x ++ refsInL xs
def refsInF : Fields → List String
  | [] => []
  | (k, v) :: fs =>
    (if k = "$ref" then (match v with | .str s => [s] | _ => []) else []) ++
      (refsIn v ++ refsInF fs)
end

/-- `refsIn` collected over the values of a field list. -/
def refsValsF : Fields → List String
  | [] => []
  | (_, v) :: fs => refsIn v ++ refsValsF fs

/- ### Kernel-computable string helpers

The built-in `String.splitOn`, `String.startsWith`, `String.toUpper` and
`String.toNat?` do not reduce in the kernel, so the few string
operations the source uses are re-implemented over `String.data`. -/

def parseDigitsGo : List Char → Nat → Option Nat
  | [], acc => some acc
  | c :: cs, acc =>
    if 48 ≤ c.toNat ∧ c.toNat ≤ 57 then parseDigitsGo cs (acc * 10 + (c.toNat - 48))
    else none

/-- The canonical-array-index reading of a string key, as used by
JavaScript array indexing (`a["2"]` reads an element, `a["02"]` does
not). -/
def arrayIndex? (k : String) : Option Nat :=
  match k.data with
  | [] => none
  | _ :: _ =>
    match parseDigitsGo k.data 0 with
    | some n => if Nat.repr n = k then some n else none
    | none => none

def splitOnChar (sep : Char) : List Char → List (List Char)
  | [] => [[]]
  | c :: cs =>
    match splitOnChar sep cs with
    | [] => [[c]]
    | g :: gs => if c = sep then [] :: g :: gs else (c :: g) :: gs

def strStartsWith (s pre : String) : Bool := pre.data.isPrefixOf s.data

def upperChar (c : Char) : Char :=
  if 97 ≤ c.toNat ∧ c.toNat ≤ 122 then Char.ofNat (c.toNat - 32) else c

/-- `toUpperCase` on the ASCII strings used by the source. -/
def asciiUpper (s : String) : String := ⟨s.data.map upperChar⟩

/- ### JavaScript property access and value coercions -/

/-- JavaScript `v?.[k]`: `none` is `undefined`.  Objects give their
field, arrays and strings answer canonical indices and `length`;
everything else (including `null`) gives `undefined`. -/
def jsGet : Json → String → Option Json
  | .obj fs, k => lookupField fs k
  | .arr xs, k =>
    if k = "length" then some (.num xs.length)
    else
      match arrayIndex? k with
      | some i => xs[i]?
      | none => none
  | .str s, k =>
    if k = "length" then some (.num s.length)
    else
      match arrayIndex? k with
      | some i =>
        match s.data[i]? with
        | some c => some (.str (String.mk [c]))
        | none => none
      | none => none
  | _, _ => none

/-- Optional chaining composed with property access: `o?.k` where `o`
may already be `undefined`. -/
def optGet (o : Option Json) (k : String) : Option Json := o.bind (fun v => jsGet v k)

/-- `x || d` where `x` is a possibly-`undefined` JavaScript value. -/
def jsOr (o : Option Json) (dflt : Json) : Json :=
  match o with
  | some v => if truthy v then v else dflt
  | none => dflt

/-- `x || d` on a present value. -/
def jsOrV (v dflt : Json) : Json := if truthy v then v else dflt

/-- `Boolean(x)` of a possibly-`undefined` value. -/
def optTruthy (o : Option Json) : Bool :=
  match o with
  | some v => truthy v
  | none => false

/- JavaScript `String(v)` stringification of a JSON value (arrays join
their elements with `","`, `null` elements becoming empty). -/
mutual
def jsToString : Json → String
  | .null => "null"
  | .bool b => if b then "true" else "false"
  | .num n => toString n
  | .str s => s
  | .arr xs => jsArrToString xs
  | .obj _ => "[object Object]"
def jsArrToString : List Json → String
  | [] => ""
  | x :: xs =>
    (match x with | .null => "" | v => jsToString v) ++
      (match xs with | [] => "" | _ => "," ++ jsArrToString xs)
end

/-- `Object.keys(v)` (own enumerable keys, insertion order). -/
def jsKeys : Json → List String
  | .obj fs => fs.map (fun kv => kv.1)
  | .arr xs => (List.range xs.length).map Nat.repr
  | .str s => (List.range s.length).map Nat.repr
  | _ => []

/- ### `resolveRef` (src/unnamed/part_000, lines 112-121) -/

/-- The loop of `resolveRef`: `current = current?.[part]`, returning
`null` as soon as a step is `undefined`. -/
def walkPath : List String → Json → Json
  | [], current => current
  | p :: ps, current =>
    match jsGet current p with
    | none => Json.null
    | some v => walkPath ps v

/-- `resolveRef(ref, spec)`: intra-document pointer resolution.  A
pointer not starting with `#/` gives `null`; otherwise the fragment is
split on `/` and the document is indexed sequentially. -/
def resolveRef (ref : String) (spec : Json) : Json :=
  if strStartsWith ref "#/" then
    walkPath ((splitOnChar '/' (ref.data.drop 2)).map String.mk) spec
  else Json.null

/-- `true` iff the walk of `resolveRef` hits an `undefined` step (the
pointed-to path is missing from the document). -/
def pathMissing : List String → Json → Bool
  | [], _ => false
  | p :: ps, current =>
    match jsGet current p with
    | none => true
    | some v => pathMissing ps v

/- ### Object spread and merge -/

def indexedFields : List Json → Nat → Fields
  | [], _ => []
  | x :: xs, i => (Nat.repr i, x) :: indexedFields xs (i + 1)

def indexedChars : List Char → Nat → Fields
  | [], _ => []
  | c :: cs, i => (Nat.repr i, .str (String.mk [c])) :: indexedChars cs (i + 1)

/-- Own enumerable fields contributed by `{...v}` (objects spread their
fields, arrays and strings their indexed elements, primitives nothing). -/
def spreadFields : Json → Fields
  | .obj fs => fs
  | .arr xs => indexedFields xs 0
  | .str s => indexedChars s.data 0
  | _ => []

/-- `{...a, ...b}`: keys of `a` in order with `b`'s value winning on
conflict, then the keys of `b` not in `a`, in order. -/
def mergeFields (a b : Fields) : Fields :=
  a.map (fun kv => (kv.1, (lookupField b kv.1).getD kv.2)) ++
    b.filter (fun kv => (lookupField a kv.1).isNone)

/-- JavaScript assignment `o[k] = v`: update in place, else append. -/
def setField : Fields → String → Json → Fields
  | [], k, v => [(k, v)]
  | (k', v') :: fs, k, v =>
    if k' = k then (k, v) :: fs else (k', v') :: setField fs k v

/-- The rest produced by `const { $ref: _, ...rest } = schema`. -/
def eraseField : Fields → String → Fields
  | [], _ => []
  | (k', v) :: fs, k => if k' = k then eraseField fs k else (k', v) :: eraseField fs k

/-- `Object.entries(v)` when `typeof v === 'object' && v`, else `none`. -/
def entriesOf : Json → Option Fields
  | .obj fs => some fs
  | .arr xs => some (indexedFields xs 0)
  | _ => none

/-- The `$ref` string of a schema node when the guard
`schema.$ref && typeof schema.$ref === 'string'` passes. -/
def refString (fs : Fields) : Option String :=
  match lookupField fs "$ref" with
  | some (.str s) => if s = "" then none else some s
  | _ => none

/-- `schema.allOf` when `Array.isArray(schema.allOf)` holds. -/
def allOfArr (fs : Fields) : Option (List Json) :=
  match lookupField fs "allOf" with
  | some (.arr parts) => some parts
  | _ => none

/-- `{...(resolved || {})}`'s contributed fields. -/
def truthyFields (v : Json) : Fields := if truthy v then spreadFields v else []

/- ### `resolveSchema` (src/unnamed/part_000, lines 123-149)

The recursion of `resolveSchema` is embedded as a single fuel-indexed
interpreter over explicit tasks, in state-passing style for the mutable
`seen` set:

* `.sch schema` is a call `resolveSchema(schema, spec, seen)`;
* `.objBody fields` is the non-`$ref` handling of an object schema
  (the `allOf` branch or the default `items`/`properties` branch);
* `.allOfGo parts acc` is the `schema.allOf.reduce` loop (the `seen`
  set object is shared, so its state threads across members);
* `.propsGo entries acc` is the `properties` rebuild loop (each value
  is resolved with `new Set(seen)`, a copy, so the output `seen` of
  each property resolution is discarded and the outer set is
  unchanged).

Running out of fuel gives `none`; the theorems below show a computable
fuel bound (`schemaFuel`) past which the result is stable, which is the
termination claim for the embedded recursion. -/

inductive RTask where
  | sch (schema : Json)
  | objBody (fields : Fields)
  | allOfGo (parts : List Json) (acc : Fields)
  | propsGo (entries : Fields) (acc : Fields)

def runResolve (spec : Json) : Nat → RTask → List String → Option (Json × List String)
  | 0, _, _ => none
  | fuel + 1, .sch schema, seen =>
    match schema with
    | .obj fields =>
      match refString fields with
      | some s =>
        if s ∈ seen then some (.obj [("type", .str "object")], seen)
        else
          (runResolve spec fuel (.sch (resolveRef s spec)) (s :: seen)).map
            (fun rr : Json × List String => (.obj (mergeFields (truthyFields rr.1) (eraseField fields "$ref")), rr.2))
      | none => runResolve spec fuel (.objBody fields) seen
    | .arr xs => some (.obj (indexedFields xs 0), seen)
    | other => some (other, seen)
  | fuel + 1, .objBody fields, seen =>
    match allOfArr fields with
    | some parts => runResolve spec fuel (.allOfGo parts []) seen
    | none =>
      (match lookupField fields "items" with
       | some it =>
         if truthy it then
           (runResolve spec fuel (.sch it) seen).map
             (fun ir : Json × List String => (setField fields "items" ir.1, ir.2))
         else some (fields, seen)
       | none => some (fields, seen)).bind
        (fun ns =>
          match lookupField ns.1 "properties" with
          | some pv =>
            match entriesOf pv with
            | some entries =>
              (runResolve spec fuel (.propsGo entries []) ns.2).map
                (fun pr : Json × List String => (.obj (setField ns.1 "properties" pr.1), ns.2))
            | none => some (.obj ns.1, ns.2)
          | none => some (.obj ns.1, ns.2))
  | fuel + 1, .allOfGo parts acc, seen =>
    match parts with
    | [] => some (.obj acc, seen)
    | p :: ps =>
      (runResolve spec fuel (.sch p) seen).bind
        (fun rr : Json × List String => runResolve spec fuel (.allOfGo ps (mergeFields acc (truthyFields rr.1))) rr.2)
  | fuel + 1, .propsGo entries acc, seen =>
    match entries with
    | [] => some (.obj acc, seen)
    | (k, v) :: rest =>
      (runResolve spec fuel (.sch v) seen).bind
        (fun rr : Json × List String => runResolve spec fuel (.propsGo rest (acc ++ [(k, rr.1)])) seen)
termination_by structural fuel _ _ => fuel

/- ### Termination bound -/

def taskRefs : RTask → List String
  | .sch s => refsIn s
  | .objBody fs => refsInF fs
  | .allOfGo parts _ => refsInL parts
  | .propsGo entries _ => refsValsF entries

def taskSize : RTask → Nat
  | .sch s => jsize s
  | .objBody fs => jsizeF fs
  | .allOfGo parts _ => jsizeL parts
  | .propsGo entries _ => jsizeF entries

/-- The number of candidate `$ref` strings not yet in the `seen` set. -/
def countNotSeen (refs : List String) (seen : List String) : Nat :=
  (refs.toFinset.filter (fun r => r ∉ seen)).card

/-- Termination measure for `runResolve`: every recursive call strictly
decreases it, so it bounds the fuel needed. -/
def mu (spec : Json) (t : RTask) (seen : List String) : Nat :=
  countNotSeen (refsIn spec ++ taskRefs t) seen * (jsize spec + 1) + taskSize t

/-- Enough fuel for `resolveSchema(schema, spec, seen)`. -/
def schemaFuel (spec schema : Json) (seen : List String) : Nat :=
  mu spec (.sch schema) seen + 1

/-- Total wrapper for `resolveSchema(schema, spec, seen)`, returning the
result value together with the final state of the (mutated) `seen` set. -/
def resolveSchemaW (schema spec : Json) (seen : List String) : Json × List String :=
  (runResolve spec (schemaFuel spec schema seen) (.sch schema) seen).getD (Json.null, seen)

/-- `resolveSchema(schema, spec)` with the default fresh `seen` set. -/
def resolveSchema (schema spec : Json) : Json := (resolveSchemaW schema spec []).1

/- ### Basic lemmas about the JSON helpers -/

theorem jsize_pos : ∀ v, 1 ≤ jsize v := by
  intro v
  cases v <;> simp [jsize]

theorem lookupField_mem : ∀ (fs : Fields) (k : String) (v : Json),
    lookupField fs k = some v → (k, v) ∈ fs := by
  intro fs k v h
  induction fs with
  | nil => simp [lookupField] at h
  | cons kv rest ih =>
    obtain ⟨k', v'⟩ := kv
    simp only [lookupField] at h
    by_cases hk : k' = k
    · simp [hk] at h
      simp [hk, h]
    · simp [hk] at h
      exact List.mem_cons_of_mem _ (ih h)

theorem jsize_lt_of_mem_fields : ∀ (fs : Fields) (k : String) (v : Json),
    (k, v) ∈ fs → jsize v < jsizeF fs := by
  intro fs k v h
  induction fs with
  | nil => simp at h
  | cons kv rest ih =>
    rcases List.mem_cons.1 h with h1 | h1
    · obtain ⟨k', v'⟩ := kv
      simp at h1
      simp [jsizeF, h1.2]
      omega
    · obtain ⟨k', v'⟩ := kv
      have := ih h1
      simp [jsizeF]
      omega

theorem jsize_lt_of_mem_list : ∀ (xs : List Json) (x : Json),
    x ∈ xs → jsize x < jsizeL xs := by
  intro xs x h
  induction xs with
  | nil => simp at h
  | cons y rest ih =>
    rcases List.mem_cons.1 h with h1 | h1
    · simp [jsizeL, h1]; omega
    · have := ih h1
      simp [jsizeL]; omega

theorem refsIn_sub_of_mem_fields : ∀ (fs : Fields) (k : String) (v : Json),
    (k, v) ∈ fs → refsIn v ⊆ refsInF fs := by
  intro fs k v h
  induction fs with
  | nil => simp at h
  | cons kv rest ih =>
    obtain ⟨k', v'⟩ := kv
    rcases List.mem_cons.1 h with h1 | h1
    · simp at h1
      intro r hr
      simp [refsInF]
      exact Or.inr (Or.inl (h1.2 ▸ hr))
    · intro r hr
      simp [refsInF]
      exact Or.inr (Or.inr (ih h1 hr))

theorem refsIn_sub_of_mem_list : ∀ (xs : List Json) (x : Json),
    x ∈ xs → refsIn x ⊆ refsInL xs := by
  intro xs x h
  induction xs with
  | nil => simp at h
  | cons y rest ih =>
    rcases List.mem_cons.1 h with h1 | h1
    · intro r hr; simp [refsInL]; exact Or.inl (h1 ▸ hr)
    · intro r hr; simp [refsInL]; exact Or.inr (ih h1 hr)

theorem refsIn_sub_of_mem_vals : ∀ (fs : Fields) (k : String) (v : Json),
    (k, v) ∈ fs → refsIn v ⊆ refsValsF fs := by
  intro fs k v h
  induction fs with
  | nil => simp at h
  | cons kv rest ih =>
    obtain ⟨k', v'⟩ := kv
    rcases List.mem_cons.1 h with h1 | h1
    · simp at h1
      intro r hr
      simp [refsValsF]
      exact Or.inl (h1.2 ▸ hr)
    · intro r hr
      simp [refsValsF]
      exact Or.inr (ih h1 hr)

theorem refsValsF_sub_refsInF : ∀ (fs : Fields), refsValsF fs ⊆ refsInF fs := by
  intro fs
  induction fs with
  | nil => simp [refsValsF]
  | cons kv rest ih =>
    obtain ⟨k, v⟩ := kv
    intro r hr
    simp [refsValsF] at hr
    simp [refsInF]
    rcases hr with h | h
    · exact Or.inr (Or.inl h)
    · exact Or.inr (Or.inr (ih h))

theorem mem_refsInF_of_refPair : ∀ (fs : Fields) (s : String),
    ("$ref", Json.str s) ∈ fs → s ∈ refsInF fs := by
  intro fs s hmem
  induction fs with
  | nil => simp at hmem
  | cons kv rest ih =>
    obtain ⟨k', v'⟩ := kv
    rcases List.mem_cons.1 hmem with h1 | h1
    · simp at h1
      obtain ⟨hk, hv⟩ := h1
      subst hk
      subst hv
      simp [refsInF]
    · simp [refsInF]
      right; right
      exact ih h1

theorem refString_mem_refsInF : ∀ (fs : Fields) (s : String),
    refString fs = some s → s ∈ refsInF fs := by
  intro fs s h
  unfold refString at h
  rcases hl : lookupField fs "$ref" with _ | v
  · rw [hl] at h; simp at h
  · rw [hl] at h
    cases v with
    | str s' =>
      simp at h
      obtain ⟨hne, hs⟩ := h
      subst hs
      exact mem_refsInF_of_refPair _ _ (lookupField_mem _ _ _ hl)
    | null => simp at h
    | bool b => simp at h
    | num n => simp at h
    | arr xs => simp at h
    | obj fs2 => simp at h

theorem jsizeF_indexedFields : ∀ (xs : List Json) (i : Nat),
    jsizeF (indexedFields xs i) = jsizeL xs := by
  intro xs
  induction xs with
  | nil => intro i; simp [indexedFields, jsizeF, jsizeL]
  | cons x rest ih =>
    intro i
    simp [indexedFields, jsizeF, jsizeL, ih]

theorem refsValsF_indexedFields : ∀ (xs : List Json) (i : Nat),
    refsValsF (indexedFields xs i) = refsInL xs := by
  intro xs
  induction xs with
  | nil => intro i; simp [indexedFields, refsValsF, refsInL]
  | cons x rest ih =>
    intro i
    simp [indexedFields, refsValsF, refsInL, ih]

theorem lookupField_setField_ne : ∀ (fs : Fields) (k : String) (v : Json) (k' : String),
    k ≠ k' → lookupField (setField fs k v) k' = lookupField fs k' := by
  intro fs k v k' hne
  induction fs with
  | nil => simp [setField, lookupField, hne]
  | cons kv rest ih =>
    obtain ⟨k0, v0⟩ := kv
    by_cases h0 : k0 = k
    · simp [setField, h0, lookupField, hne]
    · simp [setField, h0, lookupField]
      by_cases h1 : k0 = k'
      · simp [h1]
      · simp [h1, ih]

theorem lookupField_eraseField_self : ∀ (fs : Fields) (k : String),
    lookupField (eraseField fs k) k = none := by
  intro fs k
  induction fs with
  | nil => simp [eraseField, lookupField]
  | cons kv rest ih =>
    obtain ⟨k0, v0⟩ := kv
    by_cases h0 : k0 = k
    · simpa [eraseField, h0] using ih
    · simpa [eraseField, h0, lookupField, h0] using ih

theorem lookupField_eraseField_ne : ∀ (fs : Fields) (k k' : String),
    k' ≠ k → lookupField (eraseField fs k) k' = lookupField fs k' := by
  intro fs k k' hne
  induction fs with
  | nil => simp [eraseField, lookupField]
  | cons kv rest ih =>
    obtain ⟨k0, v0⟩ := kv
    by_cases h0 : k0 = k
    · have hne0 : ¬ k0 = k' := by rw [h0]; exact fun h => hne h.symm
      simp only [eraseField, if_pos h0, lookupField, if_neg hne0]
      exact ih
    · simp only [eraseField, if_neg h0, lookupField]
      by_cases h1 : k0 = k'
      · simp [h1]
      · simp only [if_neg h1]
        exact ih

theorem lookupField_map_getD : ∀ (a b : Fields) (k : String),
    lookupField (a.map (fun kv => (kv.1, (lookupField b kv.1).getD kv.2))) k =
      (lookupField a k).map (fun w => (lookupField b k).getD w) := by
  intro a b k
  induction a with
  | nil => simp [lookupField]
  | cons kv rest ih =>
    obtain ⟨k0, v0⟩ := kv
    by_cases h0 : k0 = k
    · simp [lookupField, h0]
    · simp [lookupField, h0, ih]

theorem lookupField_filter_of_none : ∀ (a b : Fields) (k : String),
    lookupField a k = none →
    lookupField (b.filter (fun kv => (lookupField a kv.1).isNone)) k = lookupField b k := by
  intro a b k ha
  induction b with
  | nil => simp [lookupField]
  | cons kv rest ih =>
    obtain ⟨k0, v0⟩ := kv
    by_cases h0 : k0 = k
    · subst h0
      simp [List.filter, ha, lookupField]
    · by_cases hkeep : (lookupField a k0).isNone
      · simp [List.filter, hkeep, lookupField, h0]
        exact ih
      · simp [List.filter, hkeep, lookupField, h0]
        exact ih

theorem lookupField_append_none : ∀ (a b : Fields) (k : String),
    lookupField a k = none → lookupField (a ++ b) k = lookupField b k := by
  intro a b k ha
  induction a with
  | nil => simp
  | cons kv rest ih =>
    obtain ⟨k0, v0⟩ := kv
    by_cases h0 : k0 = k
    · simp [lookupField, h0] at ha
    · simp only [lookupField, h0, if_neg h0, List.cons_append] at ha ⊢
      simp [lookupField, h0]
      exact ih ha

theorem lookupField_append_some : ∀ (a b : Fields) (k : String) (v : Json),
    lookupField a k = some v → lookupField (a ++ b) k = some v := by
  intro a b k v ha
  induction a with
  | nil => simp [lookupField] at ha
  | cons kv rest ih =>
    obtain ⟨k0, v0⟩ := kv
    by_cases h0 : k0 = k
    · simp [lookupField, h0] at ha ⊢
      exact ha
    · simp [lookupField, h0] at ha ⊢
      exact ih ha

/-- In `{...a, ...b}`, a key present in `b` gets `b`'s value: later
spreads win on conflict. -/
theorem mergeFields_lookup_right : ∀ (a b : Fields) (k : String) (v : Json),
    lookupField b k = some v → lookupField (mergeFields a b) k = some v := by
  intro a b k v hb
  unfold mergeFields
  rcases ha : lookupField a k with _ | w
  · rw [lookupField_append_none]
    · rw [lookupField_filter_of_none _ _ _ ha]
      exact hb
    · rw [lookupField_map_getD, ha]
      rfl
  · have : lookupField (a.map (fun kv => (kv.1, (lookupField b kv.1).getD kv.2))) k
        = some ((lookupField b k).getD w) := by
      rw [lookupField_map_getD, ha]
      rfl
    rw [lookupField_append_some _ _ _ _ this, hb]
    rfl

/-- In `{...a, ...b}`, a key absent from `b` keeps `a`'s value. -/
theorem mergeFields_lookup_left : ∀ (a b : Fields) (k : String),
    lookupField b k = none → lookupField (mergeFields a b) k = lookupField a k := by
  intro a b k hb
  unfold mergeFields
  rcases ha : lookupField a k with _ | w
  · rw [lookupField_append_none]
    · rw [lookupField_filter_of_none _ _ _ ha]
      exact hb
    · rw [lookupField_map_getD, ha]
      rfl
  · have : lookupField (a.map (fun kv => (kv.1, (lookupField b kv.1).getD kv.2))) k
        = some ((lookupField b k).getD w) := by
      rw [lookupField_map_getD, ha]
      rfl
    rw [lookupField_append_some _ _ _ _ this, hb]
    rfl

theorem mergeFields_nil_left : ∀ (b : Fields), mergeFields [] b = b := by
  intro b
  unfold mergeFields
  simp [lookupField]

/- ### Sub-value lemmas for pointer walking -/

theorem jsize_jsGet_le : ∀ (v : Json) (k : String) (w : Json),
    jsGet v k = some w → jsize w ≤ jsize v := by
  intro v k w h
  cases v with
  | obj fs =>
    simp only [jsGet] at h
    have := jsize_lt_of_mem_fields fs k w (lookupField_mem _ _ _ h)
    simp only [jsize]
    omega
  | arr xs =>
    simp only [jsGet] at h
    split at h
    · cases h; simp only [jsize]; omega
    · split at h
      · next i hi =>
        have hmem : w ∈ xs := by
          obtain ⟨hlt, hget⟩ := List.getElem?_eq_some_iff.1 h
          exact hget ▸ List.getElem_mem hlt
        have := jsize_lt_of_mem_list xs w hmem
        simp only [jsize]
        omega
      · simp at h
  | str s =>
    simp only [jsGet] at h
    split at h
    · cases h; simp only [jsize]; omega
    · split at h
      · next i hi =>
        split at h
        · cases h; simp only [jsize]; omega
        · simp at h
      · simp at h
  | null => simp [jsGet] at h
  | bool b => simp [jsGet] at h
  | num n => simp [jsGet] at h

theorem refsIn_jsGet_sub : ∀ (v : Json) (k : String) (w : Json),
    jsGet v k = some w → refsIn w ⊆ refsIn v := by
  intro v k w h
  cases v with
  | obj fs =>
    simp only [jsGet] at h
    have := refsIn_sub_of_mem_fields fs k w (lookupField_mem _ _ _ h)
    simpa [refsIn] using this
  | arr xs =>
    simp only [jsGet] at h
    split at h
    · cases h; simp [refsIn]
    · split at h
      · next i hi =>
        have hmem : w ∈ xs := by
          have := List.getElem?_eq_some_iff.1 h
          obtain ⟨hlt, hget⟩ := this
          exact hget ▸ List.getElem_mem hlt
        have := refsIn_sub_of_mem_list xs w hmem
        simpa [refsIn] using this
      · simp at h
  | str s =>
    simp only [jsGet] at h
    split at h
    · cases h; simp [refsIn]
    · split at h
      · next i hi =>
        split at h
        · cases h; simp [refsIn]
        · simp at h
      · simp at h
  | null => simp [jsGet] at h
  | bool b => simp [jsGet] at h
  | num n => simp [jsGet] at h

theorem jsize_walkPath_le : ∀ (ps : List String) (v : Json),
    jsize (walkPath ps v) ≤ jsize v := by
  intro ps
  induction ps with
  | nil => intro v; simp [walkPath]
  | cons p rest ih =>
    intro v
    simp only [walkPath]
    rcases hg : jsGet v p with _ | w
    · simpa [jsize] using jsize_pos v
    · exact Nat.le_trans (ih w) (jsize_jsGet_le _ _ _ hg)

theorem refsIn_walkPath_sub : ∀ (ps : List String) (v : Json),
    refsIn (walkPath ps v) ⊆ refsIn v := by
  intro ps
  induction ps with
  | nil => intro v; simp [walkPath]
  | cons p rest ih =>
    intro v
    simp only [walkPath]
    rcases hg : jsGet v p with _ | w
    · simp [refsIn]
    · exact fun r hr => refsIn_jsGet_sub _ _ _ hg (ih w hr)

theorem jsize_resolveRef_le : ∀ (s : String) (spec : Json),
    jsize (resolveRef s spec) ≤ jsize spec := by
  intro s spec
  unfold resolveRef
  split
  · exact jsize_walkPath_le _ _
  · simpa [jsize] using jsize_pos spec

theorem refsIn_resolveRef_sub : ∀ (s : String) (spec : Json),
    refsIn (resolveRef s spec) ⊆ refsIn spec := by
  intro s spec
  unfold resolveRef
  split
  · exact refsIn_walkPath_sub _ _
  · simp [refsIn]

/- ### Counting and measure lemmas -/

theorem countNotSeen_le {A' A seen seen' : List String}
    (hA : A' ⊆ A) (hseen : seen ⊆ seen') :
    countNotSeen A' seen' ≤ countNotSeen A seen := by
  apply Finset.card_le_card
  intro r hr
  simp only [Finset.mem_filter, List.mem_toFinset] at hr ⊢
  exact ⟨hA hr.1, fun hm => hr.2 (hseen hm)⟩

theorem countNotSeen_lt {A' A seen : List String} {s : String}
    (hA : A' ⊆ A) (hs : s ∈ A) (hns : s ∉ seen) :
    countNotSeen A' (s :: seen) < countNotSeen A seen := by
  apply Finset.card_lt_card
  rw [Finset.ssubset_def]
  constructor
  · intro r hr
    simp only [Finset.mem_filter, List.mem_toFinset] at hr ⊢
    exact ⟨hA hr.1, fun hm => hr.2 (List.mem_cons_of_mem _ hm)⟩
  · intro hsub
    have hmem : s ∈ (List.toFinset A).filter (fun r => r ∉ seen) := by
      simp only [Finset.mem_filter, List.mem_toFinset]
      exact ⟨hs, hns⟩
    have := hsub hmem
    simp only [Finset.mem_filter, List.mem_toFinset] at this
    exact this.2 (List.mem_cons_self _ _)

theorem mu_lt_structural (spec : Json) {t' t : RTask} {seen seen' : List String}
    (hsub : taskRefs t' ⊆ taskRefs t) (hseen : seen ⊆ seen')
    (hsize : taskSize t' < taskSize t) : mu spec t' seen' < mu spec t seen := by
  unfold mu
  have hc : countNotSeen (refsIn spec ++ taskRefs t') seen'
      ≤ countNotSeen (refsIn spec ++ taskRefs t) seen := by
    apply countNotSeen_le _ hseen
    intro r hr
    rcases List.mem_append.1 hr with h | h
    · exact List.mem_append.2 (Or.inl h)
    · exact List.mem_append.2 (Or.inr (hsub h))
  exact Nat.add_lt_add_of_le_of_lt (Nat.mul_le_mul_right _ hc) hsize

theorem mu_lt_ref (spec : Json) {t' t : RTask} {seen : List String} {s : String}
    (hsub : taskRefs t' ⊆ refsIn spec) (hmem : s ∈ taskRefs t) (hns : s ∉ seen)
    (hsize : taskSize t' ≤ jsize spec) : mu spec t' (s :: seen) < mu spec t seen := by
  unfold mu
  have hc : countNotSeen (refsIn spec ++ taskRefs t') (s :: seen)
      < countNotSeen (refsIn spec ++ taskRefs t) seen := by
    apply countNotSeen_lt _ (List.mem_append.2 (Or.inr hmem)) hns
    intro r hr
    rcases List.mem_append.1 hr with h | h
    · exact List.mem_append.2 (Or.inl h)
    · exact List.mem_append.2 (Or.inl (hsub h))
  calc countNotSeen (refsIn spec ++ taskRefs t') (s :: seen) * (jsize spec + 1) + taskSize t'
      ≤ countNotSeen (refsIn spec ++ taskRefs t') (s :: seen) * (jsize spec + 1) + jsize spec :=
        Nat.add_le_add_left hsize _
    _ < (countNotSeen (refsIn spec ++ taskRefs t') (s :: seen) + 1) * (jsize spec + 1) := by
        rw [Nat.add_mul, Nat.one_mul]
        omega
    _ ≤ countNotSeen (refsIn spec ++ taskRefs t) seen * (jsize spec + 1) := by
        apply Nat.mul_le_mul_right
        omega
    _ ≤ countNotSeen (refsIn spec ++ taskRefs t) seen * (jsize spec + 1) + taskSize t :=
        Nat.le_add_right _ _

/- ### The `seen` set only grows (mutations add, never remove) -/

theorem runResolve_seen_sub : ∀ (spec : Json) (fuel : Nat) (t : RTask) (seen : List String)
    (ov : Json) (os : List String),
    runResolve spec fuel t seen = some (ov, os) → seen ⊆ os := by
  intro spec fuel
  induction fuel with
  | zero => intro t seen ov os h; simp [runResolve] at h
  | succ fuel ih =>
    intro t seen ov os h
    cases t with
    | sch schema =>
      cases schema with
      | obj fields =>
        simp only [runResolve] at h
        rcases href : refString fields with _ | s <;> simp only [href] at h
        · exact ih _ _ _ _ h
        · by_cases hcm : s ∈ seen
          · rw [if_pos hcm] at h
            simp only [Option.some.injEq, Prod.mk.injEq] at h
            obtain ⟨h1, h2⟩ := h
            subst h2
            exact fun a ha => ha
          · rw [if_neg hcm] at h
            rcases hrec : runResolve spec fuel (.sch (resolveRef s spec)) (s :: seen)
                with _ | ⟨r, seen2⟩ <;> simp only [hrec] at h
            · simp at h
            · simp only [Option.map_some', Option.some.injEq, Prod.mk.injEq] at h
              obtain ⟨h1, h2⟩ := h
              subst h2
              exact fun a ha => ih _ _ _ _ hrec (List.mem_cons_of_mem _ ha)
      | arr xs =>
        simp only [runResolve, Option.some.injEq, Prod.mk.injEq] at h
        obtain ⟨h1, h2⟩ := h
        subst h2
        exact fun a ha => ha
      | null =>
        simp only [runResolve, Option.some.injEq, Prod.mk.injEq] at h
        obtain ⟨h1, h2⟩ := h
        subst h2
        exact fun a ha => ha
      | bool b =>
        simp only [runResolve, Option.some.injEq, Prod.mk.injEq] at h
        obtain ⟨h1, h2⟩ := h
        subst h2
        exact fun a ha => ha
      | num n =>
        simp only [runResolve, Option.some.injEq, Prod.mk.injEq] at h
        obtain ⟨h1, h2⟩ := h
        subst h2
        exact fun a ha => ha
      | str s =>
        simp only [runResolve, Option.some.injEq, Prod.mk.injEq] at h
        obtain ⟨h1, h2⟩ := h
        subst h2
        exact fun a ha => ha
    | objBody fields =>
      simp only [runResolve] at h
      rcases hall : allOfArr fields with _ | parts <;> simp only [hall] at h
      case' some => exact ih _ _ _ _ h
      case none =>
        have propsRest : ∀ (next1 : Fields) (seen1 : List String),
            seen ⊆ seen1 →
            (match lookupField next1 "properties" with
             | some pv =>
               match entriesOf pv with
               | some entries =>
                 (runResolve spec fuel (.propsGo entries []) seen1).map
                   (fun pr : Json × List String => (.obj (setField next1 "properties" pr.1), seen1))
               | none => some (.obj next1, seen1)
             | none => some (.obj next1, seen1)) = some (ov, os) → seen ⊆ os := by
          intro next1 seen1 hs1 hm
          rcases hp : lookupField next1 "properties" with _ | pv <;> simp only [hp] at hm
          · simp only [Option.some.injEq, Prod.mk.injEq] at hm
            obtain ⟨h1, h2⟩ := hm
            subst h2
            exact hs1
          · rcases he : entriesOf pv with _ | entries <;> simp only [he] at hm
            · simp only [Option.some.injEq, Prod.mk.injEq] at hm
              obtain ⟨h1, h2⟩ := hm
              subst h2
              exact hs1
            · rcases hrec : runResolve spec fuel (.propsGo entries []) seen1
                  with _ | ⟨po, ps⟩ <;> simp only [hrec] at hm
              · simp at hm
              · simp only [Option.map_some', Option.some.injEq, Prod.mk.injEq] at hm
                obtain ⟨h1, h2⟩ := hm
                subst h2
                exact hs1
        rcases hit : lookupField fields "items" with _ | it <;> simp only [hit] at h
        · simp only [Option.some_bind] at h
          exact propsRest fields seen (fun a ha => ha) h
        · by_cases htr : truthy it
          · rw [if_pos htr] at h
            rcases hrec1 : runResolve spec fuel (.sch it) seen
                with _ | ⟨ri, seen1⟩ <;> simp only [hrec1] at h
            · simp at h
            · simp only [Option.map_some', Option.some_bind] at h
              exact propsRest (setField fields "items" ri) seen1 (ih _ _ _ _ hrec1) h
          · rw [if_neg htr] at h
            simp only [Option.some_bind] at h
            exact propsRest fields seen (fun a ha => ha) h
    | allOfGo parts acc =>
      simp only [runResolve] at h
      cases parts with
      | nil =>
        simp only [Option.some.injEq, Prod.mk.injEq] at h
        obtain ⟨h1, h2⟩ := h
        subst h2
        exact fun a ha => ha
      | cons p ps =>
        rcases hrec1 : runResolve spec fuel (.sch p) seen with _ | ⟨r, seen1⟩ <;> simp only [hrec1] at h
        · simp at h
        · simp only [Option.some_bind] at h
          exact fun a ha => ih _ _ _ _ h (ih _ _ _ _ hrec1 ha)
    | propsGo entries acc =>
      simp only [runResolve] at h
      cases entries with
      | nil =>
        simp only [Option.some.injEq, Prod.mk.injEq] at h
        obtain ⟨h1, h2⟩ := h
        subst h2
        exact fun a ha => ha
      | cons kv rest =>
        obtain ⟨k, v⟩ := kv
        rcases hrec1 : runResolve spec fuel (.sch v) seen with _ | ⟨r, seen1⟩ <;> simp only [hrec1] at h
        · simp at h
        · simp only [Option.some_bind] at h
          exact ih _ _ _ _ h

/- ### More fuel never changes a successful result -/

theorem runResolve_mono : ∀ (spec : Json) (fuel : Nat) (t : RTask) (seen : List String)
    (out : Json × List String),
    runResolve spec fuel t seen = some out → runResolve spec (fuel + 1) t seen = some out := by
  intro spec fuel
  induction fuel with
  | zero => intro t seen out h; simp [runResolve] at h
  | succ fuel ih =>
    intro t seen out h
    cases t with
    | sch schema =>
      cases schema with
      | obj fields =>
        simp only [runResolve] at h
        set m := fuel + 1 with hm
        clear_value m
        simp only [runResolve]
        rcases href : refString fields with _ | s <;> simp only [href] at h ⊢
        · exact ih _ _ _ h
        · by_cases hcm : s ∈ seen
          · rw [if_pos hcm] at h ⊢
            exact h
          · rw [if_neg hcm] at h ⊢
            rcases hrec : runResolve spec fuel (.sch (resolveRef s spec)) (s :: seen)
                with _ | rr <;> simp only [hrec] at h
            · simp at h
            · rw [ih _ _ _ hrec]
              exact h
      | arr xs => simpa only [runResolve] using h
      | null => simpa only [runResolve] using h
      | bool b => simpa only [runResolve] using h
      | num n => simpa only [runResolve] using h
      | str s => simpa only [runResolve] using h
    | objBody fields =>
      simp only [runResolve] at h
      set m := fuel + 1 with hm
      clear_value m
      simp only [runResolve]
      rcases hall : allOfArr fields with _ | parts <;> simp only [hall] at h ⊢
      case' some => exact ih _ _ _ h
      case none =>
        have propsRest : ∀ (next1 : Fields) (seen1 : List String),
            (match lookupField next1 "properties" with
             | some pv =>
               match entriesOf pv with
               | some entries =>
                 (runResolve spec fuel (.propsGo entries []) seen1).map
                   (fun pr : Json × List String => (.obj (setField next1 "properties" pr.1), seen1))
               | none => some (.obj next1, seen1)
             | none => some (.obj next1, seen1)) = some out →
            (match lookupField next1 "properties" with
             | some pv =>
               match entriesOf pv with
               | some entries =>
                 (runResolve spec m (.propsGo entries []) seen1).map
                   (fun pr : Json × List String => (.obj (setField next1 "properties" pr.1), seen1))
               | none => some (.obj next1, seen1)
             | none => some (.obj next1, seen1)) = some out := by
          intro next1 seen1 hm2
          rcases hp : lookupField next1 "properties" with _ | pv <;> simp only [hp] at hm2 ⊢
          · exact hm2
          · rcases he : entriesOf pv with _ | entries <;> simp only [he] at hm2 ⊢
            · exact hm2
            · rcases hrec : runResolve spec fuel (.propsGo entries []) seen1
                  with _ | pr <;> simp only [hrec] at hm2
              · simp at hm2
              · rw [ih _ _ _ hrec]
                exact hm2
        rcases hit : lookupField fields "items" with _ | it <;> simp only [hit] at h ⊢
        · simp only [Option.some_bind] at h ⊢
          exact propsRest fields seen h
        · by_cases htr : truthy it
          · rw [if_pos htr] at h ⊢
            rcases hrec1 : runResolve spec fuel (.sch it) seen
                with _ | ri <;> simp only [hrec1] at h
            · simp at h
            · rw [ih _ _ _ hrec1]
              simp only [Option.map_some', Option.some_bind] at h ⊢
              exact propsRest (setField fields "items" ri.1) ri.2 h
          · rw [if_neg htr] at h ⊢
            simp only [Option.some_bind] at h ⊢
            exact propsRest fields seen h
    | allOfGo parts acc =>
      cases parts with
      | nil => simpa only [runResolve] using h
      | cons p ps =>
        simp only [runResolve] at h
        set m := fuel + 1 with hm
        clear_value m
        have hstep : runResolve spec (m + 1) (.allOfGo (p :: ps) acc) seen
            = (runResolve spec m (.sch p) seen).bind
                (fun rr : Json × List String =>
                  runResolve spec m (.allOfGo ps (mergeFields acc (truthyFields rr.1))) rr.2) := rfl
        rw [hstep]
        rcases hrec1 : runResolve spec fuel (.sch p) seen with _ | rr <;> simp only [hrec1] at h
        · simp at h
        · rw [ih _ _ _ hrec1]
          simp only [Option.some_bind] at h ⊢
          exact ih _ _ _ h
    | propsGo entries acc =>
      cases entries with
      | nil => simpa only [runResolve] using h
      | cons kv rest =>
        obtain ⟨k, v⟩ := kv
        simp only [runResolve] at h
        set m := fuel + 1 with hm
        clear_value m
        have hstep : runResolve spec (m + 1) (.propsGo ((k, v) :: rest) acc) seen
            = (runResolve spec m (.sch v) seen).bind
                (fun rr : Json × List String =>
                  runResolve spec m (.propsGo rest (acc ++ [(k, rr.1)])) seen) := rfl
        rw [hstep]
        rcases hrec1 : runResolve spec fuel (.sch v) seen with _ | rr <;> simp only [hrec1] at h
        · simp at h
        · rw [ih _ _ _ hrec1]
          simp only [Option.some_bind] at h ⊢
          exact ih _ _ _ h

theorem runResolve_mono_le (spec : Json) {f1 f2 : Nat} (hle : f1 ≤ f2) (t : RTask)
    (seen : List String) (out : Json × List String)
    (h : runResolve spec f1 t seen = some out) : runResolve spec f2 t seen = some out := by
  induction f2, hle using Nat.le_induction with
  | base => exact h
  | succ n hn ih => exact runResolve_mono _ _ _ _ _ ih

theorem runResolve_agree (spec : Json) {f1 f2 : Nat} (t : RTask) (seen : List String)
    (out1 out2 : Json × List String)
    (h1 : runResolve spec f1 t seen = some out1)
    (h2 : runResolve spec f2 t seen = some out2) : out1 = out2 := by
  rcases Nat.le_total f1 f2 with hle | hle
  · have := runResolve_mono_le spec hle t seen out1 h1
    rw [this] at h2
    exact Option.some.inj h2
  · have := runResolve_mono_le spec hle t seen out2 h2
    rw [this] at h1
    exact (Option.some.inj h1).symm

/- ### Results of object-producing tasks are objects -/

/-- Tasks whose successful result is always a JavaScript object: every
branch of `resolveSchema` on an object or array input constructs an
object literal. -/
def objTask : RTask → Bool
  | .sch (.obj _) => true
  | .sch (.arr _) => true
  | .sch _ => false
  | _ => true

theorem runResolve_obj : ∀ (spec : Json) (fuel : Nat) (t : RTask) (seen : List String)
    (ov : Json) (os : List String),
    runResolve spec fuel t seen = some (ov, os) → objTask t = true → isObj ov = true := by
  intro spec fuel
  induction fuel with
  | zero => intro t seen ov os h _; simp [runResolve] at h
  | succ fuel ih =>
    intro t seen ov os h ht
    cases t with
    | sch schema =>
      cases schema with
      | obj fields =>
        simp only [runResolve] at h
        rcases href : refString fields with _ | s <;> simp only [href] at h
        · exact ih _ _ _ _ h rfl
        · by_cases hcm : s ∈ seen
          · rw [if_pos hcm] at h
            simp only [Option.some.injEq, Prod.mk.injEq] at h
            rw [← h.1]
            rfl
          · rw [if_neg hcm] at h
            rcases hrec : runResolve spec fuel (.sch (resolveRef s spec)) (s :: seen)
                with _ | rr <;> simp only [hrec] at h
            · simp at h
            · simp only [Option.map_some', Option.some.injEq, Prod.mk.injEq] at h
              rw [← h.1]
              rfl
      | arr xs =>
        simp only [runResolve, Option.some.injEq, Prod.mk.injEq] at h
        rw [← h.1]
        rfl
      | null => simp [objTask] at ht
      | bool b => simp [objTask] at ht
      | num n => simp [objTask] at ht
      | str s => simp [objTask] at ht
    | objBody fields =>
      simp only [runResolve] at h
      rcases hall : allOfArr fields with _ | parts <;> simp only [hall] at h
      case' some => exact ih _ _ _ _ h rfl
      case none =>
        have propsRest : ∀ (next1 : Fields) (seen1 : List String),
            (match lookupField next1 "properties" with
             | some pv =>
               match entriesOf pv with
               | some entries =>
                 (runResolve spec fuel (.propsGo entries []) seen1).map
                   (fun pr : Json × List String => (.obj (setField next1 "properties" pr.1), seen1))
               | none => some (.obj next1, seen1)
             | none => some (.obj next1, seen1)) = some (ov, os) → isObj ov = true := by
          intro next1 seen1 hm
          rcases hp : lookupField next1 "properties" with _ | pv <;> simp only [hp] at hm
          · simp only [Option.some.injEq, Prod.mk.injEq] at hm
            rw [← hm.1]
            rfl
          · rcases he : entriesOf pv with _ | entries <;> simp only [he] at hm
            · simp only [Option.some.injEq, Prod.mk.injEq] at hm
              rw [← hm.1]
              rfl
            · rcases hrec : runResolve spec fuel (.propsGo entries []) seen1
                  with _ | pr <;> simp only [hrec] at hm
              · simp at hm
              · simp only [Option.map_some', Option.some.injEq, Prod.mk.injEq] at hm
                rw [← hm.1]
                rfl
        rcases hit : lookupField fields "items" with _ | it <;> simp only [hit] at h
        · simp only [Option.some_bind] at h
          exact propsRest fields seen h
        · by_cases htr : truthy it
          · rw [if_pos htr] at h
            rcases hrec1 : runResolve spec fuel (.sch it) seen
                with _ | ri <;> simp only [hrec1] at h
            · simp at h
            · simp only [Option.map_some', Option.some_bind] at h
              exact propsRest (setField fields "items" ri.1) ri.2 h
          · rw [if_neg htr] at h
            simp only [Option.some_bind] at h
            exact propsRest fields seen h
    | allOfGo parts acc =>
      simp only [runResolve] at h
      cases parts with
      | nil =>
        simp only [Option.some.injEq, Prod.mk.injEq] at h
        rw [← h.1]
        rfl
      | cons p ps =>
        rcases hrec1 : runResolve spec fuel (.sch p) seen with _ | rr <;> simp only [hrec1] at h
        · simp at h
        · simp only [Option.some_bind] at h
          exact ih _ _ _ _ h rfl
    | propsGo entries acc =>
      simp only [runResolve] at h
      cases entries with
      | nil =>
        simp only [Option.some.injEq, Prod.mk.injEq] at h
        rw [← h.1]
        rfl
      | cons kv rest =>
        obtain ⟨k, v⟩ := kv
        rcases hrec1 : runResolve spec fuel (.sch v) seen with _ | rr <;> simp only [hrec1] at h
        · simp at h
        · simp only [Option.some_bind] at h
          exact ih _ _ _ _ h rfl

/- ### The measure decreases along every recursion edge -/

theorem allOfArr_eq_some : ∀ (fs : Fields) (parts : List Json),
    allOfArr fs = some parts → lookupField fs "allOf" = some (.arr parts) := by
  intro fs parts h
  unfold allOfArr at h
  rcases hl : lookupField fs "allOf" with _ | v <;> rw [hl] at h
  · simp at h
  · cases v <;> simp at h
    rw [h]

theorem refString_eq_lookup : ∀ (fs : Fields) (s : String),
    refString fs = some s → lookupField fs "$ref" = some (.str s) ∧ s ≠ "" := by
  intro fs s h
  unfold refString at h
  rcases hl : lookupField fs "$ref" with _ | v <;> rw [hl] at h
  · simp at h
  · cases v <;> simp at h
    obtain ⟨hne, hs⟩ := h
    subst hs
    exact ⟨rfl, hne⟩

theorem mu_objBody_lt (spec : Json) (fields : Fields) (seen : List String) :
    mu spec (.objBody fields) seen < mu spec (.sch (.obj fields)) seen := by
  apply mu_lt_structural
  · simp only [taskRefs, refsIn]
    exact fun a ha => ha
  · exact fun a ha => ha
  · simp only [taskSize, jsize]
    omega

theorem mu_ref_lt (spec : Json) (fields : Fields) (seen : List String) (s : String)
    (href : refString fields = some s) (hcm : s ∉ seen) :
    mu spec (.sch (resolveRef s spec)) (s :: seen) < mu spec (.sch (.obj fields)) seen := by
  apply mu_lt_ref
  · simp only [taskRefs]
    exact refsIn_resolveRef_sub s spec
  · simp only [taskRefs, refsIn]
    exact refString_mem_refsInF _ _ href
  · exact hcm
  · simp only [taskSize]
    exact jsize_resolveRef_le s spec

theorem mu_allOf_lt (spec : Json) (fields : Fields) (parts : List Json) (acc : Fields)
    (seen : List String) (h : lookupField fields "allOf" = some (.arr parts)) :
    mu spec (.allOfGo parts acc) seen < mu spec (.objBody fields) seen := by
  have hmem := lookupField_mem _ _ _ h
  have hsize := jsize_lt_of_mem_fields _ _ _ hmem
  have hsub := refsIn_sub_of_mem_fields _ _ _ hmem
  apply mu_lt_structural
  · simp only [taskRefs]
    intro a ha
    exact hsub (by simpa [refsIn] using ha)
  · exact fun a ha => ha
  · simp only [taskSize]
    simp only [jsize] at hsize
    omega

theorem mu_items_lt (spec : Json) (fields : Fields) (it : Json) (seen : List String)
    (h : lookupField fields "items" = some it) :
    mu spec (.sch it) seen < mu spec (.objBody fields) seen := by
  have hmem := lookupField_mem _ _ _ h
  apply mu_lt_structural
  · simp only [taskRefs]
    exact refsIn_sub_of_mem_fields _ _ _ hmem
  · exact fun a ha => ha
  · simp only [taskSize]
    exact jsize_lt_of_mem_fields _ _ _ hmem

theorem entries_bounds (fields : Fields) (pv : Json) (entries : Fields)
    (hp : lookupField fields "properties" = some pv) (he : entriesOf pv = some entries) :
    refsValsF entries ⊆ refsInF fields ∧ jsizeF entries < jsizeF fields := by
  have hmem := lookupField_mem _ _ _ hp
  have hsize := jsize_lt_of_mem_fields _ _ _ hmem
  have hsub := refsIn_sub_of_mem_fields _ _ _ hmem
  cases pv with
  | obj fs2 =>
    simp only [entriesOf, Option.some.injEq] at he
    subst he
    constructor
    · intro a ha
      exact hsub (by simpa [refsIn] using refsValsF_sub_refsInF _ ha)
    · simp only [jsize] at hsize
      omega
  | arr xs =>
    simp only [entriesOf, Option.some.injEq] at he
    subst he
    constructor
    · intro a ha
      rw [refsValsF_indexedFields] at ha
      exact hsub (by simpa [refsIn] using ha)
    · rw [jsizeF_indexedFields]
      simp only [jsize] at hsize
      omega
  | null => simp [entriesOf] at he
  | bool b => simp [entriesOf] at he
  | num n => simp [entriesOf] at he
  | str s => simp [entriesOf] at he

theorem mu_props_lt (spec : Json) (fields : Fields) (pv : Json) (entries acc : Fields)
    (seen seen1 : List String)
    (hp : lookupField fields "properties" = some pv) (he : entriesOf pv = some entries)
    (hseen : seen ⊆ seen1) :
    mu spec (.propsGo entries acc) seen1 < mu spec (.objBody fields) seen := by
  obtain ⟨hsub, hsize⟩ := entries_bounds fields pv entries hp he
  apply mu_lt_structural
  · simpa only [taskRefs] using hsub
  · exact hseen
  · simpa only [taskSize] using hsize

theorem mu_allOf_head_lt (spec : Json) (p : Json) (ps : List Json) (acc : Fields)
    (seen : List String) :
    mu spec (.sch p) seen < mu spec (.allOfGo (p :: ps) acc) seen := by
  apply mu_lt_structural
  · simp only [taskRefs]
    exact refsIn_sub_of_mem_list _ _ (List.mem_cons_self _ _)
  · exact fun a ha => ha
  · simp only [taskSize, jsizeL]
    omega

theorem mu_allOf_tail_lt (spec : Json) (p : Json) (ps : List Json) (acc acc' : Fields)
    (seen seen1 : List String) (hseen : seen ⊆ seen1) :
    mu spec (.allOfGo ps acc') seen1 < mu spec (.allOfGo (p :: ps) acc) seen := by
  apply mu_lt_structural
  · simp only [taskRefs]
    intro a ha
    simp [refsInL]
    exact Or.inr ha
  · exact hseen
  · simp only [taskSize, jsizeL]
    have := jsize_pos p
    omega

theorem mu_props_head_lt (spec : Json) (k : String) (v : Json) (rest acc : Fields)
    (seen : List String) :
    mu spec (.sch v) seen < mu spec (.propsGo ((k, v) :: rest) acc) seen := by
  apply mu_lt_structural
  · simp only [taskRefs]
    intro a ha
    simp [refsValsF]
    exact Or.inl ha
  · exact fun a ha => ha
  · simp only [taskSize, jsizeF]
    omega

theorem mu_props_tail_lt (spec : Json) (k : String) (v : Json) (rest acc acc' : Fields)
    (seen : List String) :
    mu spec (.propsGo rest acc') seen < mu spec (.propsGo ((k, v) :: rest) acc) seen := by
  apply mu_lt_structural
  · simp only [taskRefs]
    intro a ha
    simp [refsValsF]
    exact Or.inr ha
  · exact fun a ha => ha
  · simp only [taskSize, jsizeF]
    have := jsize_pos v
    omega

/- ### Sufficient fuel: past the measure, the interpreter succeeds -/

theorem runResolve_isSome : ∀ (spec : Json) (fuel : Nat) (t : RTask) (seen : List String),
    mu spec t seen < fuel → (runResolve spec fuel t seen).isSome = true := by
  intro spec fuel
  induction fuel with
  | zero => intro t seen h; omega
  | succ fuel ih =>
    intro t seen h
    have hle : mu spec t seen ≤ fuel := Nat.lt_succ_iff.mp h
    cases t with
    | sch schema =>
      cases schema with
      | obj fields =>
        rcases href : refString fields with _ | s
        · have hlt : mu spec (.objBody fields) seen < fuel :=
            Nat.lt_of_lt_of_le (mu_objBody_lt spec fields seen) hle
          have hsome := ih _ _ hlt
          obtain ⟨rr, hrr⟩ := Option.isSome_iff_exists.mp hsome
          simp [runResolve, href, hrr]
        · by_cases hcm : s ∈ seen
          · simp [runResolve, href, hcm]
          · have hlt : mu spec (.sch (resolveRef s spec)) (s :: seen) < fuel :=
              Nat.lt_of_lt_of_le (mu_ref_lt spec fields seen s href hcm) hle
            have hsome := ih _ _ hlt
            obtain ⟨rr, hrr⟩ := Option.isSome_iff_exists.mp hsome
            simp [runResolve, href, hcm, hrr]
      | arr xs => simp [runResolve]
      | null => simp [runResolve]
      | bool b => simp [runResolve]
      | num n => simp [runResolve]
      | str s => simp [runResolve]
    | objBody fields =>
      rcases hall : allOfArr fields with _ | parts
      · have propsRest : ∀ (next1 : Fields) (seen1 : List String),
            lookupField next1 "properties" = lookupField fields "properties" →
            seen ⊆ seen1 →
            ((match lookupField next1 "properties" with
              | some pv =>
                match entriesOf pv with
                | some entries =>
                  (runResolve spec fuel (.propsGo entries []) seen1).map
                    (fun pr : Json × List String => (.obj (setField next1 "properties" pr.1), seen1))
                | none => some (.obj next1, seen1)
              | none => some (.obj next1, seen1) : Option (Json × List String))).isSome = true := by
          intro next1 seen1 hpeq hs1
          rcases hp : lookupField next1 "properties" with _ | pv <;> simp only [hp]
          · simp
          · rcases he : entriesOf pv with _ | entries <;> simp only [he]
            · simp
            · have hlt : mu spec (.propsGo entries []) seen1 < fuel :=
                Nat.lt_of_lt_of_le
                  (mu_props_lt spec fields pv entries [] seen seen1 (hpeq ▸ hp) he hs1) hle
              have hsome := ih _ _ hlt
              obtain ⟨pr, hpr⟩ := Option.isSome_iff_exists.mp hsome
              simp [hpr]
        rcases hit : lookupField fields "items" with _ | it
        · have := propsRest fields seen rfl (fun a ha => ha)
          simp only [runResolve, hall, hit, Option.some_bind]
          exact this
        · by_cases htr : truthy it
          · have hlt1 : mu spec (.sch it) seen < fuel :=
              Nat.lt_of_lt_of_le (mu_items_lt spec fields it seen hit) hle
            obtain ⟨⟨ri, seen1⟩, hri⟩ := Option.isSome_iff_exists.mp (ih _ _ hlt1)
            have hs1 : seen ⊆ seen1 := runResolve_seen_sub spec fuel _ _ _ _ hri
            have hpeq : lookupField (setField fields "items" ri) "properties"
                = lookupField fields "properties" :=
              lookupField_setField_ne _ _ _ _ (by decide)
            have := propsRest (setField fields "items" ri) seen1 hpeq hs1
            simp only [runResolve, hall, hit, if_pos htr, hri, Option.map_some',
              Option.some_bind]
            exact this
          · have := propsRest fields seen rfl (fun a ha => ha)
            simp only [runResolve, hall, hit, if_neg htr, Option.some_bind]
            exact this
      · have hlt : mu spec (.allOfGo parts []) seen < fuel :=
          Nat.lt_of_lt_of_le
            (mu_allOf_lt spec fields parts [] seen (allOfArr_eq_some _ _ hall)) hle
        have hsome := ih _ _ hlt
        obtain ⟨rr, hrr⟩ := Option.isSome_iff_exists.mp hsome
        simp [runResolve, hall, hrr]
    | allOfGo parts acc =>
      cases parts with
      | nil => simp [runResolve]
      | cons p ps =>
        have hlt1 : mu spec (.sch p) seen < fuel :=
          Nat.lt_of_lt_of_le (mu_allOf_head_lt spec p ps acc seen) hle
        obtain ⟨⟨r, seen1⟩, hr⟩ := Option.isSome_iff_exists.mp (ih _ _ hlt1)
        have hs1 : seen ⊆ seen1 := runResolve_seen_sub spec fuel _ _ _ _ hr
        have hlt2 : mu spec (.allOfGo ps (mergeFields acc (truthyFields r))) seen1 < fuel :=
          Nat.lt_of_lt_of_le (mu_allOf_tail_lt spec p ps acc _ seen seen1 hs1) hle
        obtain ⟨rr2, hrr2⟩ := Option.isSome_iff_exists.mp (ih _ _ hlt2)
        simp [runResolve, hr, hrr2]
    | propsGo entries acc =>
      cases entries with
      | nil => simp [runResolve]
      | cons kv rest =>
        obtain ⟨k, v⟩ := kv
        have hlt1 : mu spec (.sch v) seen < fuel :=
          Nat.lt_of_lt_of_le (mu_props_head_lt spec k v rest acc seen) hle
        obtain ⟨⟨r, seen1⟩, hr⟩ := Option.isSome_iff_exists.mp (ih _ _ hlt1)
        have hlt2 : mu spec (.propsGo rest (acc ++ [(k, r)])) seen < fuel :=
          Nat.lt_of_lt_of_le (mu_props_tail_lt spec k v rest acc _ seen) hle
        obtain ⟨rr2, hrr2⟩ := Option.isSome_iff_exists.mp (ih _ _ hlt2)
        simp [runResolve, hr, hrr2]

/- ### The total wrapper and its characterising equations -/

theorem runResolve_schemaFuel (spec schema : Json) (seen : List String) :
    runResolve spec (schemaFuel spec schema seen) (.sch schema) seen
      = some (resolveSchemaW schema spec seen) := by
  have hs := runResolve_isSome spec (schemaFuel spec schema seen) (.sch schema) seen
    (by unfold schemaFuel; omega)
  obtain ⟨out, hout⟩ := Option.isSome_iff_exists.mp hs
  unfold resolveSchemaW
  rw [hout]
  rfl

/-- Any fuel above the measure gives the stable result: the embedded
recursion of `resolveSchema` terminates with value `resolveSchemaW`. -/
theorem runResolve_eq_W (spec schema : Json) (seen : List String) {fuel : Nat}
    (h : mu spec (.sch schema) seen < fuel) :
    runResolve spec fuel (.sch schema) seen = some (resolveSchemaW schema spec seen) := by
  obtain ⟨out, hout⟩ := Option.isSome_iff_exists.mp (runResolve_isSome spec fuel _ seen h)
  rw [hout]
  have := runResolve_agree spec (.sch schema) seen out (resolveSchemaW schema spec seen)
    hout (runResolve_schemaFuel spec schema seen)
  rw [this]

theorem resolveSchemaW_seen_sub (schema spec : Json) (seen : List String) :
    seen ⊆ (resolveSchemaW schema spec seen).2 := by
  have := runResolve_schemaFuel spec schema seen
  exact runResolve_seen_sub spec _ _ _ _ _ this

theorem resolveSchemaW_obj (schema spec : Json) (seen : List String)
    (h : isObjLike schema = true) : isObj (resolveSchemaW schema spec seen).1 = true := by
  have heq := runResolve_schemaFuel spec schema seen
  apply runResolve_obj spec (schemaFuel spec schema seen) (.sch schema) seen _ _ heq
  cases schema <;> simp [isObjLike] at h ⊢ <;> simp [objTask]

theorem resolveSchemaW_def (schema spec : Json) (seen : List String) :
    resolveSchemaW schema spec seen
      = (runResolve spec (mu spec (.sch schema) seen + 1) (.sch schema) seen).getD
          (Json.null, seen) := rfl

/-- A non-object, non-array schema value is returned unchanged (the
`!schema || typeof schema !== 'object'` guard). -/
theorem resolveSchemaW_prim (schema spec : Json) (seen : List String)
    (h : isObjLike schema = false) : resolveSchemaW schema spec seen = (schema, seen) := by
  rw [resolveSchemaW_def]
  cases schema <;> simp [isObjLike] at h <;> simp [runResolve]

/-- An array schema is spread into an object with index keys and not
recursed into. -/
theorem resolveSchemaW_arr (xs : List Json) (spec : Json) (seen : List String) :
    resolveSchemaW (.arr xs) spec seen = (.obj (indexedFields xs 0), seen) := by
  rw [resolveSchemaW_def]
  simp [runResolve]

/-- The cycle guard: a `$ref` already in the per-branch `seen` set
short-circuits to the generic empty-object schema without recursing. -/
theorem resolveSchemaW_ref_seen (fields : Fields) (spec : Json) (seen : List String)
    (s : String) (href : refString fields = some s) (hcm : s ∈ seen) :
    resolveSchemaW (.obj fields) spec seen = (.obj [("type", .str "object")], seen) := by
  rw [resolveSchemaW_def]
  simp only [runResolve, href, if_pos hcm]
  rfl

/-- The `$ref` branch: the reference is added to the (mutated) `seen`
set, the target is resolved, and the sibling keys are overlaid on the
resolved target with the local `$ref` key removed. -/
theorem resolveSchemaW_ref_step (fields : Fields) (spec : Json) (seen : List String)
    (s : String) (href : refString fields = some s) (hcm : s ∉ seen) :
    resolveSchemaW (.obj fields) spec seen
      = (.obj (mergeFields (truthyFields (resolveSchemaW (resolveRef s spec) spec (s :: seen)).1)
                (eraseField fields "$ref")),
         (resolveSchemaW (resolveRef s spec) spec (s :: seen)).2) := by
  rw [resolveSchemaW_def]
  simp only [runResolve, href, if_neg hcm]
  rw [runResolve_eq_W spec _ _ (mu_ref_lt spec fields seen s href hcm)]
  rfl

/-- The `allOf`-reduce loop, written with the total wrapper: note the
`seen` set is threaded from one member to the next (the JavaScript
`Set` object is shared by reference across the `reduce` callback). -/
def allOfFoldW (spec : Json) : List Json → Fields → List String → Fields × List String
  | [], acc, seen => (acc, seen)
  | p :: ps, acc, seen =>
    allOfFoldW spec ps
      (mergeFields acc (truthyFields (resolveSchemaW p spec seen).1))
      (resolveSchemaW p spec seen).2

theorem run_allOfGo_eval : ∀ (parts : List Json) (spec : Json) (fuel : Nat) (acc : Fields)
    (seen : List String), mu spec (.allOfGo parts acc) seen < fuel →
    runResolve spec fuel (.allOfGo parts acc) seen
      = some (.obj (allOfFoldW spec parts acc seen).1, (allOfFoldW spec parts acc seen).2) := by
  intro parts
  induction parts with
  | nil =>
    intro spec fuel acc seen h
    cases fuel with
    | zero => omega
    | succ f => simp [runResolve, allOfFoldW]
  | cons p ps ih =>
    intro spec fuel acc seen h
    cases fuel with
    | zero => omega
    | succ f =>
      have hle : mu spec (.allOfGo (p :: ps) acc) seen ≤ f := Nat.lt_succ_iff.mp h
      have hv : mu spec (.sch p) seen < f :=
        Nat.lt_of_lt_of_le (mu_allOf_head_lt spec p ps acc seen) hle
      have hs1 : seen ⊆ (resolveSchemaW p spec seen).2 := resolveSchemaW_seen_sub p spec seen
      have hrest : mu spec
          (.allOfGo ps (mergeFields acc (truthyFields (resolveSchemaW p spec seen).1)))
          (resolveSchemaW p spec seen).2 < f :=
        Nat.lt_of_lt_of_le (mu_allOf_tail_lt spec p ps acc _ seen _ hs1) hle
      simp only [runResolve]
      rw [runResolve_eq_W spec _ _ hv]
      simp only [Option.some_bind]
      rw [ih spec f _ _ hrest]
      simp [allOfFoldW]

theorem run_propsGo_eval : ∀ (entries : Fields) (spec : Json) (fuel : Nat) (acc : Fields)
    (seen : List String), mu spec (.propsGo entries acc) seen < fuel →
    runResolve spec fuel (.propsGo entries acc) seen
      = some (.obj (acc ++ entries.map (fun kv => (kv.1, (resolveSchemaW kv.2 spec seen).1))),
              seen) := by
  intro entries
  induction entries with
  | nil =>
    intro spec fuel acc seen h
    cases fuel with
    | zero => omega
    | succ f => simp [runResolve]
  | cons kv rest ih =>
    intro spec fuel acc seen h
    obtain ⟨k, v⟩ := kv
    cases fuel with
    | zero => omega
    | succ f =>
      have hle : mu spec (.propsGo ((k, v) :: rest) acc) seen ≤ f := Nat.lt_succ_iff.mp h
      have hv : mu spec (.sch v) seen < f :=
        Nat.lt_of_lt_of_le (mu_props_head_lt spec k v rest acc seen) hle
      have hrest : mu spec (.propsGo rest (acc ++ [(k, (resolveSchemaW v spec seen).1)])) seen
          < f := Nat.lt_of_lt_of_le (mu_props_tail_lt spec k v rest acc _ seen) hle
      simp only [runResolve]
      rw [runResolve_eq_W spec _ _ hv]
      simp only [Option.some_bind]
      rw [ih spec f _ seen hrest]
      simp

/-- The `allOf` branch: members are resolved in order with the shared,
threaded `seen` set, and shallow-merged left to right into an
accumulated object starting from `{}`. -/
theorem run_objBody_allOf (spec : Json) (fields : Fields) (parts : List Json)
    (seen : List String) {fuel : Nat} (h : mu spec (.objBody fields) seen < fuel)
    (hall : allOfArr fields = some parts) :
    runResolve spec fuel (.objBody fields) seen
      = some (.obj (allOfFoldW spec parts [] seen).1, (allOfFoldW spec parts [] seen).2) := by
  cases fuel with
  | zero => omega
  | succ f =>
    simp only [runResolve, hall]
    exact run_allOfGo_eval parts spec f [] seen
      (Nat.lt_of_lt_of_le
        (mu_allOf_lt spec fields parts [] seen (allOfArr_eq_some _ _ hall))
        (Nat.lt_succ_iff.mp h))

theorem resolveSchemaW_allOf (fields : Fields) (spec : Json) (seen : List String)
    (parts : List Json) (href : refString fields = none)
    (hall : allOfArr fields = some parts) :
    resolveSchemaW (.obj fields) spec seen
      = (.obj (allOfFoldW spec parts [] seen).1, (allOfFoldW spec parts [] seen).2) := by
  rw [resolveSchemaW_def]
  simp only [runResolve, href]
  rw [run_objBody_allOf spec fields parts seen (mu_objBody_lt spec fields seen) hall]
  rfl

/-- The default branch for an object schema with `properties` (and no
`$ref`, no array `allOf`, no `items`): every property value is resolved
with its own copy of the `seen` set — all siblings use the same
incoming set, and the outer set is returned unchanged. -/
theorem run_objBody_props (spec : Json) (fields : Fields) (props : Fields)
    (seen : List String) {fuel : Nat} (h : mu spec (.objBody fields) seen < fuel)
    (hall : allOfArr fields = none) (hitems : lookupField fields "items" = none)
    (hprops : lookupField fields "properties" = some (.obj props)) :
    runResolve spec fuel (.objBody fields) seen
      = some (.obj (setField fields "properties"
            (.obj (props.map (fun kv => (kv.1, (resolveSchemaW kv.2 spec seen).1))))),
          seen) := by
  cases fuel with
  | zero => omega
  | succ f =>
    simp only [runResolve, hall, hitems, Option.some_bind, hprops]
    have he : entriesOf (.obj props) = some props := rfl
    simp only [he]
    rw [run_propsGo_eval props spec f [] seen
      (Nat.lt_of_lt_of_le
        (mu_props_lt spec fields (.obj props) props [] seen seen hprops he (fun a ha => ha))
        (Nat.lt_succ_iff.mp h))]
    simp

theorem resolveSchemaW_props (fields : Fields) (spec : Json) (seen : List String)
    (props : Fields) (href : refString fields = none) (hall : allOfArr fields = none)
    (hitems : lookupField fields "items" = none)
    (hprops : lookupField fields "properties" = some (.obj props)) :
    resolveSchemaW (.obj fields) spec seen
      = (.obj (setField fields "properties"
            (.obj (props.map (fun kv => (kv.1, (resolveSchemaW kv.2 spec seen).1))))),
         seen) := by
  rw [resolveSchemaW_def]
  simp only [runResolve, href]
  rw [run_objBody_props spec fields props seen (mu_objBody_lt spec fields seen) hall hitems
    hprops]
  rfl

/- ### Operation catalog (src/unnamed/part_000, lines 89-227)

`buildApiOperations` and its helpers.  The TypeScript `ApiOperationParam`
field `in` is a Lean keyword and is embedded as `location`. -/

structure ApiOperationParam where
  name : String
  location : String
  required : Bool
  description : Option Json
  schema : Json

structure ApiOperation where
  id : String
  method : String
  path : String
  summary : Json
  description : Option Json
  tags : List Json
  operationId : Option Json
  parameters : List ApiOperationParam
  requestBodySchema : Json
  requestBodyRequired : Bool
  requestContentType : Option String
  responses : Json

/-- `p?.$ref ? resolveRef(p.$ref, spec) || p : p`.  A truthy non-string
`$ref` would make `resolveRef` call `.startsWith` on a non-string and
throw a TypeError at runtime; the thrown case is modelled as `none`. -/
def resolveParamRef (spec p : Json) : Option Json :=
  match jsGet p "$ref" with
  | some r =>
    if truthy r then
      match r with
      | .str s => some (jsOrV (resolveRef s spec) p)
      | _ => none
    else some p
  | none => some p

def mkParam (spec rp : Json) : ApiOperationParam :=
  { name := jsToString (jsOr (jsGet rp "name") (.str ""))
    location := jsToString (jsOr (jsGet rp "in") (.str "query"))
    required := optTruthy (jsGet rp "required")
    description := jsGet rp "description"
    schema := resolveSchema (jsOr (jsGet rp "schema") (.obj [])) spec }

/-- The preferred request content type: `application/json` when that
key holds a truthy value, else the first key of the content map
(`Object.keys(content)[0] || null`), else none. -/
def pickContentType (content : Json) : Option String :=
  if optTruthy (jsGet content "application/json") then some "application/json"
  else
    match jsKeys content with
    | [] => none
    | k :: _ => if k = "" then none else some k

def mkOperation (spec : Json) (path method : String) (op : Json)
    (pathLevelParams : List Json) : Option ApiOperation := do
  let rawParams := pathLevelParams ++
    (match jsGet op "parameters" with | some (.arr xs) => xs | _ => [])
  let rps ← rawParams.mapM (resolveParamRef spec)
  let params := (rps.map (mkParam spec)).filter (fun p => p.name != "")
  let content := jsOr (optGet (jsGet op "requestBody") "content") (.obj [])
  let requestContentType := pickContentType content
  let requestBodySchema :=
    match requestContentType with
    | some ct => resolveSchema (jsOr (optGet (jsGet content ct) "schema") .null) spec
    | none => Json.null
  pure {
    id := asciiUpper method ++ " " ++ path
    method := asciiUpper method
    path := path
    summary := jsOr (jsGet op "summary")
      (jsOr (jsGet op "operationId") (.str (asciiUpper method ++ " " ++ path)))
    description := jsGet op "description"
    tags := (match jsGet op "tags" with | some (.arr xs) => xs | _ => [])
    operationId := jsGet op "operationId"
    parameters := params
    requestBodySchema := requestBodySchema
    requestBodyRequired := optTruthy (optGet (jsGet op "requestBody") "required")
    requestContentType := requestContentType
    responses := jsOr (jsGet op "responses") (.obj []) }

def methodNames : List String := ["get", "post", "put", "patch", "delete", "options", "head"]

def buildOpsForPath (spec : Json) (path : String) (pathItem : Json) :
    Option (List ApiOperation) :=
  if truthy pathItem && isObjLike pathItem then
    let plp := match jsGet pathItem "parameters" with | some (.arr xs) => xs | _ => []
    methodNames.foldlM (fun acc m =>
      match jsGet pathItem m with
      | some op =>
        if truthy op && isObjLike op then
          (mkOperation spec path m op plp).map (fun o => acc ++ [o])
        else some acc
      | none => some acc) []
  else some []

/-- `Object.entries(spec.paths)` behind the
`!spec?.paths || typeof spec.paths !== 'object'` guard. -/
def pathEntries (spec : Json) : Fields :=
  match jsGet spec "paths" with
  | some p => if truthy p then (entriesOf p).getD [] else []
  | none => []

def buildOpsRaw (spec : Json) : Option (List ApiOperation) :=
  (pathEntries spec).foldlM
    (fun acc kv => (buildOpsForPath spec kv.1 kv.2).map (fun os => acc ++ os)) []

/- The comparator `a.path.localeCompare(b.path) ||
a.method.localeCompare(b.method)` with `localeCompare` modelled as
code-unit comparison, and `Array.prototype.sort` modelled as a stable
sort for that comparator. -/

def charsCmp : List Char → List Char → Ordering
  | [], [] => .eq
  | [], _ :: _ => .lt
  | _ :: _, [] => .gt
  | a :: as, b :: bs =>
    if a.toNat < b.toNat then .lt
    else if b.toNat < a.toNat then .gt
    else charsCmp as bs

def strCmp (a b : String) : Ordering := charsCmp a.data b.data

def opCmp (a b : ApiOperation) : Ordering :=
  match strCmp a.path b.path with
  | .eq => strCmp a.method b.method
  | o => o

/-- `a` may come before `b` under the comparator (comparator value not
positive). -/
def opLe (a b : ApiOperation) : Bool :=
  match opCmp a b with
  | .gt => false
  | _ => true

/-- Stable insertion: the new element goes after every existing element
it does not strictly precede. -/
def insertLe {α : Type} (le : α → α → Bool) (x : α) : List α → List α
  | [] => [x]
  | y :: ys => if le y x then y :: insertLe le x ys else x :: y :: ys

/-- Stable sort by repeated insertion (the model of `Array.prototype.sort`
with a consistent comparator). -/
def isort {α : Type} (le : α → α → Bool) : List α → List α
  | [] => []
  | x :: xs => insertLe le x (isort le xs)

def buildApiOperations (spec : Json) : Option (List ApiOperation) :=
  (buildOpsRaw spec).map (isort opLe)

/- ### Input-schema synthesis (src/unnamed/part_000, lines 197-227) -/

def buildParameterSchema (params : List ApiOperationParam) : Json :=
  .obj [("type", .str "object"),
        ("properties", .obj (params.foldl
          (fun acc p => setField acc p.name
            (jsOrV p.schema (.obj [("type", .str "string")]))) [])),
        ("required", .arr ((params.filter (fun p => p.required)).map (fun p => .str p.name)))]

def buildApiInputCompositeSchema (op : Option ApiOperation) : Json :=
  match op with
  | none => .null
  | some op =>
    let pathParams := op.parameters.filter (fun p => p.location = "path")
    let queryParams := op.parameters.filter (fun p => p.location = "query")
    let hasBody := truthy op.requestBodySchema &&
      op.requestContentType == some "application/json"
    .obj [("type", .str "object"),
          ("properties", .obj
            ((if pathParams.isEmpty then []
              else [("path_params", buildParameterSchema pathParams)]) ++
             (if queryParams.isEmpty then []
              else [("query_params", buildParameterSchema queryParams)]) ++
             (if hasBody then [("body", op.requestBodySchema)] else []))),
          ("required", .arr
            ((if pathParams.isEmpty then [] else [Json.str "path_params"]) ++
             (if hasBody && op.requestBodyRequired then [Json.str "body"] else [])))]

/- ### debugFetch (src/MetaRec-ui/src/utils/debugApi.ts, lines 6-25) -/

/-- An HTTP response as `debugFetch` observes it: status line, body
text, and what `JSON.parse` yields on that text (`none` when parsing
throws).  The JSON parser itself is a browser primitive outside this
repository, so it enters the model as the `parsedJson` field. -/
structure HttpResponse where
  status : Nat
  statusText : String
  bodyText : String
  parsedJson : Option Json

/-- `Response.ok`: status in the inclusive range 200-299. -/
def respOk (r : HttpResponse) : Bool := 200 ≤ r.status && r.status ≤ 299

/-- The `parse` closure: `text ? JSON.parse(text) : {}`, catching parse
failures by returning the raw text. -/
def parseBody (r : HttpResponse) : Json :=
  if r.bodyText = "" then .obj []
  else
    match r.parsedJson with
    | some j => j
    | none => .str r.bodyText

/-- `typeof parsed === 'string' ? parsed : parsed?.detail || text`. -/
def errorDetail (r : HttpResponse) : Json :=
  match parseBody r with
  | .str s => .str s
  | p => jsOr (jsGet p "detail") (.str r.bodyText)

/-- The thrown message:
`HTTP status statusText` followed by `: detail` when the detail is truthy. -/
def debugFetchMessage (r : HttpResponse) : String :=
  "HTTP " ++ Nat.repr r.status ++ " " ++ r.statusText ++
    (if truthy (errorDetail r) then ": " ++ jsToString (errorDetail r) else "")

/-- The outcome of `debugFetch` once the response arrived: a thrown
`Error` message for non-2xx responses, the parsed body otherwise. -/
def debugFetchResult (r : HttpResponse) : Except String Json :=
  if respOk r then .ok (parseBody r) else .error (debugFetchMessage r)

/- ### Recommendation-result saving (src/MetaRec-ui/src/ui/Chat.tsx, lines 108-142) -/

/-- A restaurant as the dedup logic sees it: `r.id || r.name` falls
back to the name when the id is absent or falsy. -/
structure Restaurant where
  id : Option Json
  name : String

structure RecommendationResponse where
  restaurants : List Restaurant

def restaurantKey (r : Restaurant) : String :=
  match r.id with
  | some v => if truthy v then jsToString v else r.name
  | none => r.name

def strLeB (a b : String) : Bool :=
  match strCmp a b with
  | .gt => false
  | _ => true

/-- `result.restaurants.map(r => r.id || r.name).sort().join(',')` when
the list is non-empty, else the timestamp fallback.  `Array.sort`
without a comparator compares strings by code units, modelled by
`strCmp`. -/
def resultId (result : RecommendationResponse) (now : Nat) : String :=
  if result.restaurants.isEmpty then "empty-" ++ Nat.repr now
  else String.intercalate "," (isort strLeB (result.restaurants.map restaurantKey))

structure PersistedMessage where
  role : String
  content : String
  metadata : RecommendationResponse

/-- The chat session state the saving logic touches: the
`savedRecommendationIds` ref (a `Set`, modelled as a list) and the
messages persisted through `addMessage`/`onMessageAdded`. -/
structure ChatSaveState where
  savedRecommendationIds : List String
  persisted : List PersistedMessage

def recommendationText (result : RecommendationResponse) : String :=
  if result.restaurants.isEmpty then "No recommendations found"
  else "Found " ++ Nat.repr result.restaurants.length ++
    " restaurant recommendations: " ++
    String.intercalate ", " (result.restaurants.map (fun r => r.name))

/-- `saveRecommendationResult`: guard on the chat context
(`conversationId`, `userId`, `onMessageAdded` all set — `ctxReady`),
compute the content-derived identifier, skip if already saved, persist
via the external `addMessage` (`addMessageOk` is whether that call
succeeds) and only then mark the identifier as saved. -/
def saveRecommendationResult (ctxReady addMessageOk : Bool) (now : Nat)
    (st : ChatSaveState) (result : RecommendationResponse) : ChatSaveState :=
  if !ctxReady then st
  else
    let rid := resultId result now
    if rid ∈ st.savedRecommendationIds then st
    else if addMessageOk then
      { savedRecommendationIds := st.savedRecommendationIds ++ [rid]
        persisted := st.persisted ++
          [{ role := "assistant", content := recommendationText result,
             metadata := result }] }
    else st

/- ### Comparator and sorting lemmas -/

theorem charsCmp_gt_asymm : ∀ (a b : List Char), charsCmp a b = .gt → charsCmp b a = .lt := by
  intro a
  induction a with
  | nil => intro b h; cases b <;> simp [charsCmp] at h
  | cons x xs ih =>
    intro b h
    cases b with
    | nil => simp [charsCmp]
    | cons y ys =>
      simp only [charsCmp] at h ⊢
      by_cases hxy : x.toNat < y.toNat
      · rw [if_pos hxy] at h
        exact absurd h (by simp)
      · rw [if_neg hxy] at h
        by_cases hyx : y.toNat < x.toNat
        · rw [if_pos hyx]
        · rw [if_neg hyx] at h
          rw [if_neg (by omega : ¬ y.toNat < x.toNat), if_neg hxy]
          exact ih ys h

theorem charsCmp_eq_iff : ∀ (a b : List Char), charsCmp a b = .eq ↔ a = b := by
  intro a
  induction a with
  | nil => intro b; cases b <;> simp [charsCmp]
  | cons x xs ih =>
    intro b
    cases b with
    | nil => simp [charsCmp]
    | cons y ys =>
      simp only [charsCmp]
      by_cases hxy : x.toNat < y.toNat
      · rw [if_pos hxy]
        constructor
        · intro h; exact absurd h (by simp)
        · intro h
          injection h with h1 _
          rw [h1] at hxy
          exact absurd hxy (lt_irrefl _)
      · rw [if_neg hxy]
        by_cases hyx : y.toNat < x.toNat
        · rw [if_pos hyx]
          constructor
          · intro h; exact absurd h (by simp)
          · intro h
            injection h with h1 _
            rw [h1] at hyx
            exact absurd hyx (lt_irrefl _)
        · rw [if_neg hyx]
          have hxyeq : x = y := by
            have hn : x.toNat = y.toNat := by omega
            have h3 := congrArg Char.ofNat hn
            rwa [Char.ofNat_toNat, Char.ofNat_toNat] at h3
          subst hxyeq
          rw [ih ys]
          simp

theorem charsCmp_lt_trans : ∀ (a b c : List Char),
    charsCmp a b = .lt → charsCmp b c = .lt → charsCmp a c = .lt := by
  intro a
  induction a with
  | nil =>
    intro b c h1 h2
    cases b with
    | nil => exact h2
    | cons y ys =>
      cases c with
      | nil => simp [charsCmp] at h2
      | cons z zs => simp [charsCmp]
  | cons x xs ih =>
    intro b c h1 h2
    cases b with
    | nil => simp [charsCmp] at h1
    | cons y ys =>
      cases c with
      | nil => simp [charsCmp] at h2
      | cons z zs =>
        simp only [charsCmp] at h1 h2 ⊢
        by_cases hxy : x.toNat < y.toNat
        · by_cases hyz : y.toNat < z.toNat
          · rw [if_pos (by omega : x.toNat < z.toNat)]
          · by_cases hzy : z.toNat < y.toNat
            · rw [if_neg hyz, if_pos hzy] at h2
              simp at h2
            · rw [if_pos (by omega : x.toNat < z.toNat)]
        · rw [if_neg hxy] at h1
          by_cases hyx : y.toNat < x.toNat
          · rw [if_pos hyx] at h1
            simp at h1
          · rw [if_neg hyx] at h1
            by_cases hyz : y.toNat < z.toNat
            · rw [if_pos (by omega : x.toNat < z.toNat)]
            · rw [if_neg hyz] at h2
              by_cases hzy : z.toNat < y.toNat
              · rw [if_pos hzy] at h2
                simp at h2
              · rw [if_neg hzy] at h2
                rw [if_neg (by omega : ¬ x.toNat < z.toNat),
                  if_neg (by omega : ¬ z.toNat < x.toNat)]
                exact ih ys zs h1 h2

theorem charsCmp_le_trans : ∀ (a b c : List Char),
    charsCmp a b ≠ .gt → charsCmp b c ≠ .gt → charsCmp a c ≠ .gt := by
  intro a b c h1 h2
  rcases ha : charsCmp a b with _ | _ | _
  · rcases hb : charsCmp b c with _ | _ | _
    · rw [charsCmp_lt_trans a b c ha hb]
      simp
    · have := (charsCmp_eq_iff b c).1 hb
      rw [← this, ha]
      simp
    · exact absurd hb h2
  · have := (charsCmp_eq_iff a b).1 ha
    rw [this]
    exact h2
  · exact absurd ha h1

theorem opLe_iff (a b : ApiOperation) : opLe a b = true ↔ opCmp a b ≠ .gt := by
  unfold opLe
  rcases h : opCmp a b with _ | _ | _ <;> simp

theorem opCmp_le_trans (a b c : ApiOperation) (h1 : opCmp a b ≠ .gt)
    (h2 : opCmp b c ≠ .gt) : opCmp a c ≠ .gt := by
  unfold opCmp strCmp at h1 h2 ⊢
  rcases hp1 : charsCmp a.path.data b.path.data with _ | _ | _
  · rcases hp2 : charsCmp b.path.data c.path.data with _ | _ | _
    · have h3 := charsCmp_lt_trans _ _ _ hp1 hp2
      simp [h3]
    · have hd2 := (charsCmp_eq_iff _ _).1 hp2
      have h3 : charsCmp a.path.data c.path.data = .lt := by rw [← hd2]; exact hp1
      simp [h3]
    · rw [hp2] at h2
      exact absurd rfl h2
  · rcases hp2 : charsCmp b.path.data c.path.data with _ | _ | _
    · have hd1 := (charsCmp_eq_iff _ _).1 hp1
      have h3 : charsCmp a.path.data c.path.data = .lt := by rw [hd1]; exact hp2
      simp [h3]
    · have hd1 := (charsCmp_eq_iff _ _).1 hp1
      have h3 : charsCmp a.path.data c.path.data = .eq := by rw [hd1]; exact hp2
      simp only [h3]
      rw [hp1] at h1
      rw [hp2] at h2
      exact charsCmp_le_trans _ _ _ h1 h2
    · rw [hp2] at h2
      exact absurd rfl h2
  · rw [hp1] at h1
    exact absurd rfl h1

theorem opCmp_gt_asymm (a b : ApiOperation) (h : opCmp a b = .gt) : opCmp b a ≠ .gt := by
  unfold opCmp strCmp at h ⊢
  rcases hp : charsCmp a.path.data b.path.data with _ | _ | _
  · rw [hp] at h
    simp at h
  · rw [hp] at h
    have hd := (charsCmp_eq_iff _ _).1 hp
    have h3 : charsCmp b.path.data a.path.data = .eq := (charsCmp_eq_iff _ _).2 hd.symm
    simp only [h3]
    rw [charsCmp_gt_asymm _ _ h]
    simp
  · rw [charsCmp_gt_asymm _ _ hp]
    simp

theorem opLe_total (a b : ApiOperation) : opLe a b = true ∨ opLe b a = true := by
  by_cases h : opCmp a b = .gt
  · right
    exact (opLe_iff b a).2 (opCmp_gt_asymm a b h)
  · left
    exact (opLe_iff a b).2 h

theorem opLe_trans (a b c : ApiOperation) (h1 : opLe a b = true) (h2 : opLe b c = true) :
    opLe a c = true :=
  (opLe_iff a c).2 (opCmp_le_trans a b c ((opLe_iff a b).1 h1) ((opLe_iff b c).1 h2))

theorem mem_insertLe {α : Type} (le : α → α → Bool) (x a : α) :
    ∀ (l : List α), a ∈ insertLe le x l ↔ a = x ∨ a ∈ l := by
  intro l
  induction l with
  | nil => simp [insertLe]
  | cons y ys ih =>
    by_cases hle : le y x = true
    · simp only [insertLe, if_pos hle, List.mem_cons, ih]
      tauto
    · simp only [insertLe, if_neg hle, List.mem_cons]

theorem pairwise_insertLe {α : Type} {le : α → α → Bool}
    (total : ∀ a b, le a b = true ∨ le b a = true)
    (trans : ∀ a b c, le a b = true → le b c = true → le a c = true) (x : α) :
    ∀ (l : List α), List.Pairwise (fun a b => le a b = true) l →
      List.Pairwise (fun a b => le a b = true) (insertLe le x l) := by
  intro l
  induction l with
  | nil => intro _; simp [insertLe]
  | cons y ys ih =>
    intro h
    rw [List.pairwise_cons] at h
    obtain ⟨hy, hys⟩ := h
    by_cases hle : le y x = true
    · rw [insertLe, if_pos hle, List.pairwise_cons]
      constructor
      · intro z hz
        rcases (mem_insertLe le x z ys).1 hz with hz | hz
        · rw [hz]; exact hle
        · exact hy z hz
      · exact ih hys
    · rw [insertLe, if_neg hle, List.pairwise_cons]
      have hxy : le x y = true := by
        rcases total y x with h | h
        · exact absurd h hle
        · exact h
      constructor
      · intro z hz
        rcases List.mem_cons.1 hz with hz | hz
        · rw [hz]; exact hxy
        · exact trans x y z hxy (hy z hz)
      · rw [List.pairwise_cons]
        exact ⟨hy, hys⟩

theorem pairwise_isort {α : Type} {le : α → α → Bool}
    (total : ∀ a b, le a b = true ∨ le b a = true)
    (trans : ∀ a b c, le a b = true → le b c = true → le a c = true) :
    ∀ (l : List α), List.Pairwise (fun a b => le a b = true) (isort le l) := by
  intro l
  induction l with
  | nil => simp [isort]
  | cons x xs ih => exact pairwise_insertLe total trans x _ ih

/- ### Helper lemmas for the remaining claims -/

theorem isPrefixOf_append : ∀ (l r : List Char), l.isPrefixOf (l ++ r) = true := by
  intro l r
  induction l with
  | nil => simp [List.isPrefixOf]
  | cons x xs ih => simp [List.isPrefixOf, ih]

theorem strStartsWith_append (a b : String) : strStartsWith (a ++ b) a = true := by
  unfold strStartsWith
  rw [String.data_append]
  exact isPrefixOf_append _ _

theorem walkPath_missing : ∀ (ps : List String) (v : Json),
    pathMissing ps v = true → walkPath ps v = .null := by
  intro ps
  induction ps with
  | nil => intro v h; simp [pathMissing] at h
  | cons p rest ih =>
    intro v h
    simp only [pathMissing] at h
    simp only [walkPath]
    rcases hg : jsGet v p with _ | w <;> simp only [hg] at h ⊢
    exact ih w h

/- ### Example inputs used by the claims -/

def cexCycleSpec : Json := .obj [("components", .obj [("schemas", .obj [
  ("A", .obj [("$ref", .str "#/components/schemas/B")]),
  ("B", .obj [("$ref", .str "#/components/schemas/A")])])])]

def cexCycleSchema : Json := .obj [("$ref", .str "#/components/schemas/A")]

def cexRefT : Json := .obj [("$ref", .str "#/defs/T")]

def cexSiblingSpec : Json := .obj [("defs", .obj [("T", .obj [("type", .str "string")])])]

def cexSiblingSchema : Json := .obj [("properties", .obj [("p1", cexRefT), ("p2", cexRefT)])]

def cexAllOfSpec : Json := .obj [("defs", .obj [("T", .obj [("x", .num 1)])])]

def cexAllOfMember : Json := .obj [("$ref", .str "#/defs/T")]

def cexAllOfSchema : Json := .obj [("allOf", .arr [cexAllOfMember, cexAllOfMember])]

/- ### C1 -/

/-- C1: for every schema fragment (in particular one containing a `$ref`
cycle, such as A referencing B referencing A), `resolveSchema`
terminates: the fuel-indexed embedding stabilises at the computable
bound `schemaFuel` with value `resolveSchemaW`.  A `$ref` string already
in the branch's visited set short-circuits to the generic `{type:
'object'}` schema instead of recursing, and on any object or array
fragment (every fragment containing a `$ref` is one) the result is a
non-null object schema. -/
theorem C1_cycle_terminates (schema spec : Json) (seen : List String) :
    (∀ fuel, schemaFuel spec schema seen ≤ fuel →
      runResolve spec fuel (.sch schema) seen = some (resolveSchemaW schema spec seen))
    ∧ (isObjLike schema = true → isObj (resolveSchemaW schema spec seen).1 = true)
    ∧ (∀ (fields : Fields) (s : String), schema = .obj fields → refString fields = some s →
        s ∈ seen → resolveSchemaW schema spec seen = (.obj [("type", .str "object")], seen)) := by
  refine ⟨?_, ?_, ?_⟩
  · intro fuel hf
    apply runResolve_eq_W
    unfold schemaFuel at hf
    omega
  · exact resolveSchemaW_obj schema spec seen
  · intro fields s hsch href hcm
    subst hsch
    exact resolveSchemaW_ref_seen fields spec seen s href hcm

/-- C1 witness: the two-schema cycle A -> B -> A terminates with the
generic object schema. -/
theorem C1_witness :
    (runResolve cexCycleSpec (schemaFuel cexCycleSpec cexCycleSchema [])
        (.sch cexCycleSchema) [] = some (resolveSchemaW cexCycleSchema cexCycleSpec []))
    ∧ isObj (resolveSchemaW cexCycleSchema cexCycleSpec []).1 = true
    ∧ resolveSchema cexCycleSchema cexCycleSpec = .obj [("type", .str "object")] :=
  ⟨(C1_cycle_terminates cexCycleSchema cexCycleSpec []).1 _ (Nat.le_refl _),
   (C1_cycle_terminates cexCycleSchema cexCycleSpec []).2.1 rfl,
   rfl⟩

/- ### C2 -/

/-- C2: in the default branch, each `properties` value is resolved with
its own copy (`new Set(seen)`) of the visited set: every sibling is
resolved against the same incoming `seen`, none against a sibling's
mutations, and the outer set is returned unchanged.  Concretely, two
sibling properties referencing the same target both resolve fully to
the target's content (no `{type: 'object'}` suppression). -/
theorem C2_sibling_props_own_copy :
    (∀ (fields props : Fields) (spec : Json) (seen : List String),
      refString fields = none → allOfArr fields = none →
      lookupField fields "items" = none →
      lookupField fields "properties" = some (.obj props) →
      resolveSchemaW (.obj fields) spec seen
        = (.obj (setField fields "properties"
              (.obj (props.map (fun kv => (kv.1, (resolveSchemaW kv.2 spec seen).1))))),
           seen))
    ∧ resolveSchema cexSiblingSchema cexSiblingSpec
        = .obj [("properties", .obj
            [("p1", .obj [("type", .str "string")]),
             ("p2", .obj [("type", .str "string")])])] := by
  constructor
  · intro fields props spec seen href hall hitems hprops
    exact resolveSchemaW_props fields spec seen props href hall hitems hprops
  · rfl

/-- C2 witness: the sibling-properties schema, instantiating the
universal part at its own fields. -/
theorem C2_witness :
    resolveSchemaW cexSiblingSchema cexSiblingSpec []
      = (.obj (setField [("properties", .obj [("p1", cexRefT), ("p2", cexRefT)])] "properties"
          (.obj ([("p1", cexRefT), ("p2", cexRefT)].map
            (fun kv => (kv.1, (resolveSchemaW kv.2 cexSiblingSpec []).1))))), []) :=
  C2_sibling_props_own_copy.1 [("properties", .obj [("p1", cexRefT), ("p2", cexRefT)])]
    [("p1", cexRefT), ("p2", cexRefT)] cexSiblingSpec [] rfl rfl rfl rfl

/- ### C3 -/

/-- Following the specification's words for C3 ("each member schema is
resolved independently, then results are shallow-merged left-to-right"):
every `allOf` member resolved against the same incoming visited set,
results merged into an accumulator.  For comparison with the code's
behaviour, which threads the mutated set across members. -/
def allOfIndependent (spec : Json) (parts : List Json) (seen : List String) : Fields :=
  parts.foldl (fun acc p => mergeFields acc (truthyFields (resolveSchemaW p spec seen).1)) []

/-- C3 counterexample: for `allOf: [{$ref: T}, {$ref: T}]` with `T`
present, the code resolves the second member against the `seen` set
already mutated by the first, so the second short-circuits to
`{type: 'object'}` and the result is `{x: 1, type: 'object'}` — not the
`{x: 1}` that independent member resolution (the claim as stated)
produces. -/
theorem C3_counterexample :
    resolveSchema cexAllOfSchema cexAllOfSpec = .obj [("x", .num 1), ("type", .str "object")]
    ∧ Json.obj (allOfIndependent cexAllOfSpec [cexAllOfMember, cexAllOfMember] [])
        = .obj [("x", .num 1)]
    ∧ (Json.obj [("x", .num 1), ("type", .str "object")] = .obj [("x", .num 1)] → False) :=
  ⟨rfl, rfl, by simp⟩

/-- C3 amended: for every schema whose `allOf` key is an array,
`resolveSchema` resolves the members in order with the shared, threaded
visited set (a member's `$ref` marks propagate to later members) and
shallow-merges the results left-to-right into one accumulated object,
later members' keys winning on conflict; in particular
`allOf: [{a:1}, {a:2, b:3}]` resolves to `{a:2, b:3}`. -/
theorem C3_allOf_threaded_merge :
    (∀ (fields : Fields) (spec : Json) (seen : List String) (parts : List Json),
      refString fields = none → allOfArr fields = some parts →
      resolveSchemaW (.obj fields) spec seen
        = (.obj (allOfFoldW spec parts [] seen).1, (allOfFoldW spec parts [] seen).2))
    ∧ (∀ (a b : Fields) (k : String) (v : Json),
        lookupField b k = some v → lookupField (mergeFields a b) k = some v)
    ∧ resolveSchema (.obj [("allOf", .arr [.obj [("a", .num 1)],
          .obj [("a", .num 2), ("b", .num 3)]])]) (.obj [])
        = .obj [("a", .num 2), ("b", .num 3)] :=
  ⟨fun fields spec seen parts href hall =>
      resolveSchemaW_allOf fields spec seen parts href hall,
   mergeFields_lookup_right, rfl⟩

/-- C3 witness: the amended theorem applied to the shared-`$ref`
example and to a concrete later-keys-win lookup. -/
theorem C3_witness :
    resolveSchemaW cexAllOfSchema cexAllOfSpec []
      = (.obj (allOfFoldW cexAllOfSpec [cexAllOfMember, cexAllOfMember] [] []).1,
         (allOfFoldW cexAllOfSpec [cexAllOfMember, cexAllOfMember] [] []).2)
    ∧ lookupField (mergeFields [("a", Json.num 1)] [("a", Json.num 2), ("b", Json.num 3)]) "a"
        = some (Json.num 2) :=
  ⟨C3_allOf_threaded_merge.1 [("allOf", .arr [cexAllOfMember, cexAllOfMember])] cexAllOfSpec []
      [cexAllOfMember, cexAllOfMember] rfl rfl,
   C3_allOf_threaded_merge.2.1 [("a", Json.num 1)] [("a", Json.num 2), ("b", Json.num 3)]
      "a" (Json.num 2) rfl⟩

/- ### C4 -/

def cexQueryDoc : Json := .obj [("paths", .obj [
  ("/items/{id}", .obj [("get", .obj [("parameters", .arr [
    .obj [("name", .str "id"), ("in", .str "path"), ("required", .bool true),
          ("schema", .obj [("type", .str "string")])],
    .obj [("name", .str "q"), ("in", .str "query"),
          ("schema", .obj [("type", .str "string")])]])])])])]

def cexQueryOps : List ApiOperation := (buildApiOperations cexQueryDoc).getD []

def cexQueryProps : Fields :=
  [("path_params", .obj [("type", .str "object"),
      ("properties", .obj [("id", .obj [("type", .str "string")])]),
      ("required", .arr [.str "id"])]),
   ("query_params", .obj [("type", .str "object"),
      ("properties", .obj [("q", .obj [("type", .str "string")])]),
      ("required", .arr [])])]

def cexQueryComposite : Json :=
  .obj [("type", .str "object"), ("properties", .obj cexQueryProps),
        ("required", .arr [.str "path_params"])]

/-- C4 counterexample: for the operation with one required path
parameter `id`, one optional query parameter `q` and no body, the
synthesized composite schema DOES carry a `query_params` key (holding
the optional parameter's schema, with an empty `required` array),
whereas the claim asserts no `query_params` key is present. -/
theorem C4_counterexample :
    cexQueryOps.map (fun op => buildApiInputCompositeSchema (some op)) = [cexQueryComposite]
    ∧ (lookupField cexQueryProps "query_params").isSome = true :=
  ⟨rfl, rfl⟩

/-- C4 amended: the `query_params` sub-schema contains ALL of the
operation's query parameters (its `required` array listing exactly the
required ones), the key is present precisely when the operation has at
least one query parameter, and `query_params` itself is never in the
composite schema's `required` list.  The example operation (required
path param `id`, optional query param `q`, no body) therefore yields a
composite schema with a `query_params` entry holding `q`. -/
theorem C4_composite_query_params :
    (∀ (op : ApiOperation),
      ∃ (props : Fields) (req : List Json),
        buildApiInputCompositeSchema (some op)
          = .obj [("type", .str "object"), ("properties", .obj props),
                  ("required", .arr req)]
        ∧ lookupField props "query_params"
            = (if (op.parameters.filter (fun p => p.location = "query")).isEmpty then none
               else some (buildParameterSchema
                  (op.parameters.filter (fun p => p.location = "query"))))
        ∧ Json.str "query_params" ∉ req)
    ∧ cexQueryOps.map (fun op => buildApiInputCompositeSchema (some op))
        = [cexQueryComposite] := by
  constructor
  · intro op
    unfold buildApiInputCompositeSchema
    refine ⟨_, _, rfl, ?_, ?_⟩
    · by_cases hp : (op.parameters.filter (fun p => p.location = "path")).isEmpty <;>
        by_cases hq : (op.parameters.filter (fun p => p.location = "query")).isEmpty <;>
        by_cases hb : (truthy op.requestBodySchema &&
          op.requestContentType == some "application/json") = true <;>
        simp [lookupField, hp, hq, hb]
    · by_cases hp : (op.parameters.filter (fun p => p.location = "path")).isEmpty <;>
        by_cases hb : ((truthy op.requestBodySchema &&
            op.requestContentType == some "application/json") && op.requestBodyRequired)
              = true <;>
        simp [hp, hb]
  · rfl

/- ### C5 -/

def cexContentDoc : Json := .obj [("paths", .obj [
  ("/t", .obj [("post", .obj [("requestBody", .obj [("content", .obj [
    ("text/plain", .obj [("schema", .obj [("type", .str "string")])]),
    ("application/json", Json.null)])])])])])]

def cexContentFields : Fields :=
  [("text/plain", .obj [("schema", .obj [("type", .str "string")])]),
   ("application/json", Json.null)]

def cexContentOps : List ApiOperation := (buildApiOperations cexContentDoc).getD []

/-- C5 counterexample: with a content map whose `application/json` key
is present (holding `null`) next to a `text/plain` entry with a schema,
the chosen content type is `text/plain` although `application/json` is
present, and the operation carries a resolved non-null request-body
schema for that non-JSON content type — contradicting both halves of
the claim. -/
theorem C5_counterexample :
    cexContentOps.map (fun o => (o.requestContentType, o.requestBodySchema))
      = [(some "text/plain", Json.obj [("type", Json.str "string")])]
    ∧ lookupField cexContentFields "application/json" = some Json.null
    ∧ isNull (Json.obj [("type", Json.str "string")]) = false :=
  ⟨rfl, rfl, rfl⟩

/-- C5 amended: `application/json` is chosen when that key holds a
truthy value; otherwise the first key of the content map is chosen
(`Object.keys(content)[0] || null`); with no chosen content type the
request-body schema is `null`.  Whatever content type is chosen, JSON
or not, its schema is resolved onto the operation.  Only a JSON content
type ever yields a `body` entry in the composite input schema. -/
theorem C5_content_type_choice :
    (∀ content : Json, optTruthy (jsGet content "application/json") = true →
        pickContentType content = some "application/json")
    ∧ (∀ content : Json, optTruthy (jsGet content "application/json") = false →
        pickContentType content
          = (match jsKeys content with
             | [] => none
             | k :: _ => if k = "" then none else some k))
    ∧ (∀ (spec : Json) (path method : String) (op : Json) (plp : List Json)
         (o : ApiOperation), mkOperation spec path method op plp = some o →
        o.requestContentType
            = pickContentType (jsOr (optGet (jsGet op "requestBody") "content") (.obj []))
        ∧ o.requestBodySchema
            = (match o.requestContentType with
               | some ct => resolveSchema
                   (jsOr (optGet (jsGet (jsOr (optGet (jsGet op "requestBody") "content")
                      (.obj [])) ct) "schema") .null) spec
               | none => Json.null))
    ∧ (∀ op : ApiOperation, op.requestContentType ≠ some "application/json" →
        ∃ (props : Fields) (req : List Json),
          buildApiInputCompositeSchema (some op)
            = .obj [("type", .str "object"), ("properties", .obj props),
                    ("required", .arr req)]
          ∧ lookupField props "body" = none) := by
  refine ⟨?_, ?_, ?_, ?_⟩
  · intro content h
    unfold pickContentType
    rw [if_pos h]
  · intro content h
    unfold pickContentType
    rw [if_neg (by simp [h])]
  · intro spec path method op plp o hmk
    unfold mkOperation at hmk
    rcases hmap : (plp ++ (match jsGet op "parameters" with
        | some (.arr xs) => xs | _ => [])).mapM (resolveParamRef spec)
      with _ | rps <;> simp only [hmap, Option.bind_eq_bind, Option.none_bind,
        Option.some_bind] at hmk
    · simp at hmk
    · simp only [Option.pure_def, Option.some.injEq] at hmk
      subst hmk
      exact ⟨rfl, rfl⟩
  · intro op hne
    unfold buildApiInputCompositeSchema
    refine ⟨_, _, rfl, ?_⟩
    have hb : (truthy op.requestBodySchema &&
        op.requestContentType == some "application/json") = false := by
      have : (op.requestContentType == some "application/json") = false := by
        simpa using hne
      simp [this]
    by_cases hp : (op.parameters.filter (fun p => p.location = "path")).isEmpty <;>
      by_cases hq : (op.parameters.filter (fun p => p.location = "query")).isEmpty <;>
      simp [lookupField, hp, hq, hb]

/-- C5 witness: the amended theorem applied at a truthy-JSON content
map, at the counterexample document's operation object, and at its
resulting operation. -/
theorem C5_witness :
    pickContentType (.obj [("application/json", .obj [])]) = some "application/json"
    ∧ pickContentType (.obj cexContentFields)
        = (match jsKeys (.obj cexContentFields) with
           | [] => none
           | k :: _ => if k = "" then none else some k)
    ∧ ((mkOperation cexContentDoc "/t" "post"
          (.obj [("requestBody", .obj [("content", .obj cexContentFields)])]) []).map
        (fun o => o.requestContentType))
        = some (pickContentType (jsOr (optGet (jsGet
            (.obj [("requestBody", .obj [("content", .obj cexContentFields)])])
            "requestBody") "content") (.obj []))) := by
  refine ⟨C5_content_type_choice.1 _ rfl, C5_content_type_choice.2.1 _ rfl, ?_⟩
  have h := (C5_content_type_choice.2.2.1 cexContentDoc "/t" "post"
    (.obj [("requestBody", .obj [("content", .obj cexContentFields)])]) []
    ((mkOperation cexContentDoc "/t" "post"
      (.obj [("requestBody", .obj [("content", .obj cexContentFields)])]) []).get rfl)
    (by simp)).1
  rw [← h]
  rfl

/- ### C6 -/

def cexSortDoc : Json := .obj [("paths", .obj [
  ("/b", .obj [("get", .obj [])]),
  ("/a", .obj [("post", .obj []), ("get", .obj [])])])]

def cexSortOps : List ApiOperation := (buildApiOperations cexSortDoc).getD []

/-- C6: the operation catalog is sorted by the comparator "path first,
then upper-cased method" (`localeCompare` modelled as code-unit
comparison): every catalog `buildApiOperations` produces is pairwise
ordered under `opLe`, and the example document with paths `/b` (GET)
and `/a` (POST, GET) yields exactly the order /a GET, /a POST, /b GET. -/
theorem C6_catalog_sorted :
    (∀ (spec : Json) (ops : List ApiOperation), buildApiOperations spec = some ops →
      List.Pairwise (fun a b => opLe a b = true) ops)
    ∧ (buildApiOperations cexSortDoc).map (fun l => l.map (fun o => (o.method, o.path)))
        = some [("GET", "/a"), ("POST", "/a"), ("GET", "/b")] := by
  constructor
  · intro spec ops h
    unfold buildApiOperations at h
    rcases hr : buildOpsRaw spec with _ | raw <;> simp only [hr] at h
    · simp at h
    · simp only [Option.map_some', Option.some.injEq] at h
      subst h
      exact pairwise_isort opLe_total opLe_trans raw
  · rfl

/-- C6 witness: the sortedness statement applied to the example
document's catalog. -/
theorem C6_witness :
    List.Pairwise (fun a b => opLe a b = true) cexSortOps :=
  C6_catalog_sorted.1 cexSortDoc cexSortOps rfl

/- ### C7 -/

/-- C7: pointer resolution splits the fragment on `/` and walks the
document by sequential indexing; a pointer not starting with `#/`
resolves to `null`, and so does a pointer whose walk hits a step
missing from the document. -/
theorem C7_resolveRef_missing :
    (∀ (ref : String) (spec : Json), strStartsWith ref "#/" = true →
        resolveRef ref spec
          = walkPath ((splitOnChar '/' (ref.data.drop 2)).map String.mk) spec)
    ∧ (∀ (ref : String) (spec : Json), strStartsWith ref "#/" = false →
        resolveRef ref spec = Json.null)
    ∧ (∀ (ref : String) (spec : Json), strStartsWith ref "#/" = true →
        pathMissing ((splitOnChar '/' (ref.data.drop 2)).map String.mk) spec = true →
        resolveRef ref spec = Json.null) := by
  refine ⟨?_, ?_, ?_⟩
  · intro ref spec h
    unfold resolveRef
    rw [if_pos h]
  · intro ref spec h
    unfold resolveRef
    rw [if_neg (by simp [h])]
  · intro ref spec h hmiss
    unfold resolveRef
    rw [if_pos h]
    exact walkPath_missing _ _ hmiss

/-- C7 witness: the theorem applied to a well-formed pointer, a pointer
without the `#/` prefix, and a pointer to a path absent from the
document. -/
theorem C7_witness :
    resolveRef "#/a/b" (.obj [])
      = walkPath ((splitOnChar '/' (("#/a/b" : String).data.drop 2)).map String.mk) (.obj [])
    ∧ resolveRef "nope" (.obj []) = Json.null
    ∧ resolveRef "#/missing" (.obj [("a", Json.num 1)]) = Json.null :=
  ⟨C7_resolveRef_missing.1 "#/a/b" _ rfl, C7_resolveRef_missing.2.1 "nope" _ rfl,
   C7_resolveRef_missing.2.2 "#/missing" _ rfl rfl⟩

/- ### C8 -/

/-- C8: a non-2xx response yields an error whose message starts with
`HTTP <status> <statusText>`; when the parsed body is an object with a
truthy `detail` field the message appends `: <detail>`, and when the
body failed to parse (kept as plain text) the raw text is appended; a
2xx response returns the parsed body without error. -/
theorem C8_debugFetch_behavior :
    (∀ r : HttpResponse, respOk r = false →
        ∃ rest : String,
          debugFetchResult r
            = .error ("HTTP " ++ Nat.repr r.status ++ " " ++ r.statusText ++ rest)
          ∧ strStartsWith ("HTTP " ++ Nat.repr r.status ++ " " ++ r.statusText ++ rest)
              ("HTTP " ++ Nat.repr r.status ++ " " ++ r.statusText) = true)
    ∧ (∀ (r : HttpResponse) (fs : Fields) (d : Json), respOk r = false →
        parseBody r = .obj fs → lookupField fs "detail" = some d → truthy d = true →
        debugFetchResult r
          = .error ("HTTP " ++ Nat.repr r.status ++ " " ++ r.statusText
              ++ (": " ++ jsToString d)))
    ∧ (∀ (r : HttpResponse) (s : String), respOk r = false →
        parseBody r = .str s → s ≠ "" →
        debugFetchResult r
          = .error ("HTTP " ++ Nat.repr r.status ++ " " ++ r.statusText ++ (": " ++ s)))
    ∧ (∀ r : HttpResponse, respOk r = true →
        debugFetchResult r = .ok (parseBody r)) := by
  refine ⟨?_, ?_, ?_, ?_⟩
  · intro r h
    unfold debugFetchResult
    rw [if_neg (by simp [h])]
    exact ⟨_, rfl, strStartsWith_append _ _⟩
  · intro r fs d h hp hd ht
    have he : errorDetail r = d := by
      unfold errorDetail
      rw [hp]
      show jsOr (lookupField fs "detail") (Json.str r.bodyText) = d
      rw [hd]
      simp [jsOr, ht]
    unfold debugFetchResult
    rw [if_neg (by simp [h])]
    unfold debugFetchMessage
    rw [he, if_pos ht]
  · intro r s h hp hs
    have he : errorDetail r = .str s := by
      unfold errorDetail
      rw [hp]
    have ht : truthy (Json.str s) = true := by simp [truthy, hs]
    unfold debugFetchResult
    rw [if_neg (by simp [h])]
    unfold debugFetchMessage
    rw [he, if_pos ht]
    simp [jsToString]
  · intro r h
    unfold debugFetchResult
    rw [if_pos h]

/-- C8 witness: the theorem applied to a 500 response carrying a JSON
`detail` field and to a 200 response with an empty body. -/
theorem C8_witness :
    debugFetchResult ⟨500, "Internal Server Error", "x",
        some (.obj [("detail", Json.str "boom")])⟩
      = .error ("HTTP " ++ Nat.repr 500 ++ " " ++ "Internal Server Error"
          ++ (": " ++ jsToString (Json.str "boom")))
    ∧ debugFetchResult ⟨200, "OK", "", none⟩ = .ok (parseBody ⟨200, "OK", "", none⟩) :=
  ⟨C8_debugFetch_behavior.2.1 _ [("detail", Json.str "boom")] (Json.str "boom")
      rfl rfl rfl rfl,
   C8_debugFetch_behavior.2.2.2 _ rfl⟩

/- ### C9 -/

def cexSaveResult : RecommendationResponse :=
  ⟨[⟨some (.str "b"), "x"⟩, ⟨none, "a"⟩]⟩

/-- C9: for a non-empty recommendation result the content-derived
identifier is the sorted comma-join of the restaurants' `id || name`
keys, and the save operation is idempotent per identifier: after a
successful save, a second call with a result carrying the same
identifier leaves the state (saved-ids set and persisted messages)
unchanged. -/
theorem C9_save_idempotent :
    (∀ (r : RecommendationResponse) (now : Nat), r.restaurants.isEmpty = false →
        resultId r now
          = String.intercalate "," (isort strLeB (r.restaurants.map restaurantKey)))
    ∧ (∀ (ok2 : Bool) (now1 now2 : Nat) (st : ChatSaveState)
         (r1 r2 : RecommendationResponse),
        resultId r2 now2 = resultId r1 now1 →
        saveRecommendationResult true ok2 now2
            (saveRecommendationResult true true now1 st r1) r2
          = saveRecommendationResult true true now1 st r1) := by
  constructor
  · intro r now h
    unfold resultId
    rw [if_neg (by simp [h])]
  · intro ok2 now1 now2 st r1 r2 heq
    have hmem : resultId r1 now1
        ∈ (saveRecommendationResult true true now1 st r1).savedRecommendationIds := by
      unfold saveRecommendationResult
      by_cases hm : resultId r1 now1 ∈ st.savedRecommendationIds
      · simp [hm]
      · simp [hm]
    generalize hst1 : saveRecommendationResult true true now1 st r1 = st1 at hmem ⊢
    simp [saveRecommendationResult, heq, hmem]

/-- C9 witness: the theorem applied to a concrete two-restaurant result
(one with an id, one falling back to its name) saved twice from the
empty state, with different timestamps on the two calls. -/
theorem C9_witness :
    cexSaveResult.restaurants.isEmpty = false
    ∧ resultId cexSaveResult 0
        = String.intercalate "," (isort strLeB (cexSaveResult.restaurants.map restaurantKey))
    ∧ resultId cexSaveResult 5 = resultId cexSaveResult 0
    ∧ saveRecommendationResult true true 5
        (saveRecommendationResult true true 0 ⟨[], []⟩ cexSaveResult) cexSaveResult
      = saveRecommendationResult true true 0 ⟨[], []⟩ cexSaveResult :=
  ⟨rfl, C9_save_idempotent.1 cexSaveResult 0 rfl, rfl,
   C9_save_idempotent.2 true 0 5 ⟨[], []⟩ cexSaveResult cexSaveResult rfl⟩

/- ### C10 -/

/-- C10: a schema node carrying `$ref` together with sibling keys
resolves to the referenced schema's (truthy) fields overlaid with the
sibling keys — the siblings winning on key conflict, the `$ref` key
itself removed from the overlay — and consequently a `$ref` to a
missing path resolves to the object of the remaining sibling keys, not
to `null`. -/
theorem C10_ref_sibling_overlay :
    (∀ (fields : Fields) (spec : Json) (seen : List String) (s : String),
        refString fields = some s → s ∉ seen →
        (resolveSchemaW (.obj fields) spec seen).1
          = .obj (mergeFields
              (truthyFields (resolveSchemaW (resolveRef s spec) spec (s :: seen)).1)
              (eraseField fields "$ref")))
    ∧ (∀ (fields : Fields) (spec : Json) (seen : List String) (s k : String) (v : Json),
        refString fields = some s → s ∉ seen → k ≠ "$ref" →
        lookupField fields k = some v →
        ∃ out : Fields,
          (resolveSchemaW (.obj fields) spec seen).1 = .obj out
          ∧ lookupField out k = some v
          ∧ lookupField (eraseField fields "$ref") "$ref" = none)
    ∧ (∀ (fields : Fields) (spec : Json) (s : String),
        refString fields = some s → resolveRef s spec = Json.null →
        resolveSchema (.obj fields) spec = .obj (eraseField fields "$ref")) := by
  refine ⟨?_, ?_, ?_⟩
  · intro fields spec seen s href hcm
    rw [resolveSchemaW_ref_step fields spec seen s href hcm]
  · intro fields spec seen s k v href hcm hk hlk
    refine ⟨mergeFields
        (truthyFields (resolveSchemaW (resolveRef s spec) spec (s :: seen)).1)
        (eraseField fields "$ref"), ?_, ?_, lookupField_eraseField_self fields "$ref"⟩
    · rw [resolveSchemaW_ref_step fields spec seen s href hcm]
    · exact mergeFields_lookup_right _ _ _ _
        (by rw [lookupField_eraseField_ne fields "$ref" k hk]; exact hlk)
  · intro fields spec s href hnull
    unfold resolveSchema
    rw [resolveSchemaW_ref_step fields spec [] s href (by simp)]
    rw [hnull, resolveSchemaW_prim Json.null spec [s] rfl]
    simp [truthyFields, truthy, mergeFields_nil_left]

/-- C10 witness: the theorem applied to the node
`\x7b $ref: "#/missing", b: 2 \x7d` against an empty document: the
reference target is missing, and the result is the sibling object
`\x7b b: 2 \x7d`. -/
theorem C10_witness :
    refString [("$ref", Json.str "#/missing"), ("b", Json.num 2)] = some "#/missing"
    ∧ resolveRef "#/missing" (.obj []) = Json.null
    ∧ resolveSchema (.obj [("$ref", Json.str "#/missing"), ("b", Json.num 2)]) (.obj [])
        = .obj (eraseField [("$ref", Json.str "#/missing"), ("b", Json.num 2)] "$ref") :=
  ⟨rfl, rfl, C10_ref_sibling_overlay.2.2 _ _ "#/missing" rfl rfl⟩

end MetaRec
